import Mathlib

/-!
Verification development for the rule-based AMR traversal and ontology
disambiguation engine of the cdse-covid repository.

The Python sources embedded here are:
* `cdse_covid/semantic_extraction/utils/amr_extraction_utils.py`
* `cdse_covid/semantic_extraction/utils/claimer_utils.py`
* `wikidata_linker/disambiguate_with_amr.py`

Python dictionaries are modelled as association lists or lookup functions,
Python exceptions (`KeyError`, `IndexError`) as the `PRes.exn` outcome, and
potentially unbounded recursion via an explicit fuel argument whose
exhaustion is the `PRes.div` outcome (so `∀ fuel, … = .div` models true
divergence).  Machine floats appear only in the Dice-coefficient score;
its values are ratios of small integers computed exactly here over `ℚ`.
-/

/-- Outcome of running a piece of Python code: normal return, an uncaught
exception (`KeyError`/`IndexError`), or fuel exhaustion standing for
divergence of an unbounded recursion. -/
inductive PRes (α : Type) where
  | ok : α → PRes α
  | exn : PRes α
  | div : PRes α
deriving DecidableEq, Repr

instance : Monad PRes where
  pure := PRes.ok
  bind := fun r f =>
    match r with
    | .ok a => f a
    | .exn => .exn
    | .div => .div

/-- Python truthiness of an optional string: `None` and `""` are falsy. -/
def pyTruthy : Option String → Bool
  | none => false
  | some s => s ≠ ""

/-- Lookup in an association list, mirroring reading a Python dict
(first binding wins; the builders below keep keys unique). -/
def alookup {β : Type} (m : List (String × β)) (k : String) : Option β :=
  (m.find? (fun p => p.1 == k)).map (·.2)

/-- Insert-or-overwrite mirroring a Python dict assignment `d[k] = v`:
an existing key keeps its position and gets the new value, a fresh key is
appended at the end (Python dicts preserve insertion order). -/
def upsert {β : Type} (m : List (String × β)) (k : String) (v : β) :
    List (String × β) :=
  if (alookup m k).isSome then
    m.map (fun p => if p.1 == k then (p.1, v) else p)
  else m ++ [(k, v)]

/-- Build a Python dict from a sequence of key/value pairs
(a dict comprehension: later duplicates overwrite earlier ones in place). -/
def buildDict {β : Type} (l : List (String × β)) : List (String × β) :=
  l.foldl (fun acc p => upsert acc p.1 p.2) []

/-- Substring test, Python's `needle in hay` on strings. -/
def strContainsL (hay needle : List Char) : Bool :=
  (List.range (hay.length + 1)).any (fun i => needle.isPrefixOf (hay.drop i))

/-- Substring test on `String`s. -/
def strContains (hay needle : String) : Bool :=
  strContainsL hay.data needle.data

/-- Python `s.startswith(p)`. -/
def strStarts (s p : String) : Bool := p.data.isPrefixOf s.data

/-- Python `s.endswith(p)`. -/
def strEnds (s p : String) : Bool := p.data.isSuffixOf s.data

/-- Python `s[0] == c` (assuming `s` nonempty at call sites). -/
def firstCharIs (s : String) (c : Char) : Bool := s.data.head? == some c

/-- Python `s[-1] == c`. -/
def lastCharIs (s : String) (c : Char) : Bool := s.data.getLast? == some c

/-- Characters before the last occurrence of `sep`, if `sep` occurs. -/
def beforeLastSepAux (sep : Char) : List Char → Option (List Char)
  | [] => none
  | c :: cs =>
    match beforeLastSepAux sep cs with
    | some rest => some (c :: rest)
    | none => if c == sep then some [] else none

/-- Python `s.rsplit(sep, 1)[0]`: the text before the last occurrence of
`sep`, or the whole string when `sep` does not occur. -/
def rsplitBeforeLast (sep : Char) (s : String) : String :=
  match beforeLastSepAux sep s.data with
  | some pre => String.mk pre
  | none => s

/-- Characters after the last occurrence of `sep`, if `sep` occurs. -/
def afterLastSepAux (sep : Char) : List Char → Option (List Char)
  | [] => none
  | c :: cs =>
    match afterLastSepAux sep cs with
    | some rest => some rest
    | none => if c == sep then some cs else none

/-- Python `s.rsplit(sep, 1)[-1]`: the text after the last occurrence of
`sep`, or the whole string when `sep` does not occur. -/
def rsplitAfterLast (sep : Char) (s : String) : String :=
  match afterLastSepAux sep s.data with
  | some post => String.mk post
  | none => s

/-- Python `s.rsplit(" ")[0]`: the text before the first space
(the whole string when there is no space). -/
def beforeFirstSpace (s : String) : String :=
  String.mk (s.data.takeWhile (fun c => c ≠ ' '))

/-- Python `s.replace(pat, rep)` on character lists: replace every
non-overlapping occurrence, scanning left to right.  The fuel argument is
only there to make the recursion structural; every step consumes at least
one character, so fuel `l.length` (as passed by `replaceAll`) never runs
out.  (All patterns used by the source are nonempty.) -/
def replaceAllL (pat rep : List Char) : Nat → List Char → List Char
  | 0, l => l
  | _ + 1, [] => []
  | fuel + 1, c :: cs =>
    if pat.isPrefixOf (c :: cs) ∧ pat ≠ [] then
      rep ++ replaceAllL pat rep fuel ((c :: cs).drop pat.length)
    else
      c :: replaceAllL pat rep fuel cs

/-- Python `s.replace(pat, rep)` on strings. -/
def replaceAll (pat rep s : String) : String :=
  String.mk (replaceAllL pat.data rep.data s.data.length s.data)

/-- Python's `string.punctuation` (ASCII 33-47, 58-64, 91-96, 123-126). -/
def punctString : String :=
  String.mk (((List.range 128).filter (fun n =>
    (33 ≤ n ∧ n ≤ 47) ∨ (58 ≤ n ∧ n ≤ 64) ∨
    (91 ≤ n ∧ n ≤ 96) ∨ (123 ≤ n ∧ n ≤ 126))).map Char.ofNat)

/-- Python `token_text in string.punctuation` (a substring test, since the
left operand may be any token text). -/
def isPunct (t : String) : Bool := strContains punctString t

/-- Prefix match of the regex `[a-z]*-[0-9]{2}` (`PROPBANK_PATTERN` of
`amr_extraction_utils.py`, used via `re.match`): a run of lowercase letters
from the start, then a hyphen, then two digits.  The run of letters before
the hyphen is forced to be the maximal lowercase prefix, since `-` is not
a lowercase letter. -/
def matchesPropbank (s : String) : Bool :=
  let cs := s.data
  let rest := cs.dropWhile (fun c => 'a' ≤ c ∧ c ≤ 'z')
  match rest with
  | '-' :: d1 :: d2 :: _ => d1.isDigit ∧ d2.isDigit
  | _ => false

/-- Prefix match of the regex `[a-z-]+-[0-9]{2}` (`FRAME_LABEL_PATTERN` of
`disambiguate_with_amr.py`, e.g. `have-name-91`): for some `k ≥ 1`, the
first `k` characters are lowercase letters or hyphens, character `k` is a
hyphen, and the two following characters are digits. -/
def matchFrameLabel (s : String) : Bool :=
  let cs := s.data
  (List.range cs.length).any (fun k =>
    decide (1 ≤ k) &&
    (cs.take k).all (fun c => ('a' ≤ c ∧ c ≤ 'z') ∨ c = '-') &&
    (cs.get? k == some '-') &&
    ((cs.get? (k + 1)).map Char.isDigit).getD false &&
    ((cs.get? (k + 2)).map Char.isDigit).getD false)

/-- An AMR graph as produced by the external graph producer (spec §3):
`nodes` maps node ids to label strings in node-enumeration order, `edges`
is the ordered sequence of `(parent, role, child)` triples, plus the
designated `root` and the source `tokens`. -/
structure AMRGraph where
  nodes : List (String × String)
  edges : List (String × String × String)
  root : String
  tokens : List String
deriving DecidableEq, Repr

/-- One AMR-to-token alignment record: a set of node ids with the token
indices they align to (spec §3). -/
structure AMRAlignment where
  alignedNodes : List String
  alignedTokens : List Nat
deriving DecidableEq, Repr

/-- Node-id → label lookup (`amr.nodes` read as a Python dict). -/
def AMRGraph.labelOf (g : AMRGraph) (n : String) : Option String :=
  alookup g.nodes n

/-- The external accessor `amr.edge_mapping()`: parent node → role →
children, children listed in edge order (an absent node or role yields
the empty list, like a defaultdict entry / an absent dict key read with
`.get`). -/
def AMRGraph.edgeMapping (g : AMRGraph) : String → String → List String :=
  fun n r => g.edges.filterMap (fun e =>
    if e.1 == n && e.2.1 == r then some e.2.2 else none)

/-- Roles going out of `n`, in order of first occurrence (the key order of
the Python dict `amr_dict[n]`). -/
def AMRGraph.rolesOf (g : AMRGraph) (n : String) : List String :=
  (g.edges.filterMap (fun e => if e.1 == n then some e.2.1 else none)).dedup

/-- The flattened `amr_dict[n].values()` iteration: children grouped by
role in key order, each group in edge order. -/
def AMRGraph.roleValues (g : AMRGraph) (n : String) : List String :=
  ((g.rolesOf n).map (g.edgeMapping n)).flatten

/-- The external accessor `amr.get_parents_for_node(node)`: parents of
`node`, in edge order. -/
def AMRGraph.parentsForNode (g : AMRGraph) (n : String) : List String :=
  g.edges.filterMap (fun e => if e.2.2 == n then some e.1 else none)

/-- The external accessor `amr.get_edges_for_node(node)`: edges incident
to `node` (as parent or child), in edge order. -/
def AMRGraph.edgesForNode (g : AMRGraph) (n : String) :
    List (String × String × String) :=
  g.edges.filter (fun e => e.1 == n || e.2.2 == n)

/-- The external accessor `amr.get_ordered_node_labels()`: all node labels
in node-enumeration order (spec §4.5 step 1). -/
def AMRGraph.orderedNodeLabels (g : AMRGraph) : List String :=
  g.nodes.map (·.2)

/-- The node ids of the graph, in enumeration order. -/
def AMRGraph.nodeIds (g : AMRGraph) : List String :=
  g.nodes.map (·.1)


/-! ## `amr_extraction_utils.py` -/

/-- Helper of `create_node_to_token_dict`: append one token text to the
list accumulated for `k` (a `defaultdict(list)` access followed by
`.append`). -/
def appendTok (m : List (String × List String)) (k t : String) :
    List (String × List String) :=
  if (alookup m k).isSome then
    m.map (fun p => if p.1 == k then (p.1, p.2 ++ [t]) else p)
  else m ++ [(k, [t])]

/-- Inner double loop of `create_node_to_token_dict` over one alignment:
for each aligned node and each aligned token index, look the token up in
the sentence (an out-of-range index raises `IndexError`) and append it
unless it is punctuation. -/
def collectAlignment (tokens : List String) :
    List String → List Nat → List (String × List String) →
    PRes (List (String × List String))
  | [], _, m => .ok m
  | n :: ns, tis, m => do
    let m' ← collectTokensFor tokens n tis m
    collectAlignment tokens ns tis m'
where
  collectTokensFor (tokens : List String) (n : String) :
      List Nat → List (String × List String) →
      PRes (List (String × List String))
    | [], m => .ok m
    | ti :: tis, m =>
      match tokens.get? ti with
      | none => .exn
      | some t =>
        collectTokensFor tokens n tis (if isPunct t then m else appendTok m n t)

/-- `create_node_to_token_dict(amr, alignments)`: map each node id to the
space-joined text of its aligned non-punctuation tokens.  Nodes with no
aligned tokens are absent from the result. -/
def createNodeToTokenDict (g : AMRGraph) (aligns : List AMRAlignment) :
    PRes (List (String × String)) := do
  let m ← aligns.foldlM
    (fun m a => collectAlignment g.tokens a.alignedNodes a.alignedTokens m) []
  return m.map (fun p => (p.1, String.intercalate " " p.2))

/-- Look up every node of a list in the node-to-text mapping
(`[nodes_to_strings[n] for n in name_nodes]`; a missing node raises
`KeyError`). -/
def collectStrs (strs : String → Option String) :
    List String → PRes (List String)
  | [] => .ok []
  | n :: ns =>
    match strs n with
    | none => .exn
    | some t => do
      let ts ← collectStrs strs ns
      return t :: ts

/-- `get_full_name_value(amr_dict, nodes_to_strings, named_node)`: the
space-joined text of the `:name` children, or `None` when there are none. -/
def getFullNameValue (amrD : String → String → List String)
    (strs : String → Option String) (node : String) : PRes (Option String) :=
  match amrD node ":name" with
  | [] => .ok none
  | ns => do
    let ts ← collectStrs strs ns
    return some (String.intercalate " " ts)

/-- Loop `for mod in mods_of_focus_node: descr_strings.insert(0, ...)` of
`get_full_description` (note the `insert(0, ...)`: each modifier text is
pushed on the front, so the accumulated list holds them in reverse edge
order; a modifier absent from `nodes_to_strings` raises `KeyError`). -/
def modTexts (strs : String → Option String) :
    List String → List String → PRes (List String)
  | [], acc => .ok acc
  | m :: rest, acc =>
    match strs m with
    | none => .exn
    | some t => modTexts strs rest (t :: acc)

/-- Helper `add_sentence_text_to_variable(arg_role)` of
`get_full_description`: if the role has fillers, push the first filler's
text on the front unless already present. -/
def addFirstArg (amrD : String → String → List String)
    (strs : String → Option String) (focus role : String)
    (acc : List String) : PRes (List String) :=
  match amrD focus role with
  | [] => .ok acc
  | a :: _ =>
    match strs a with
    | none => .exn
    | some t => .ok (if t ∈ acc then acc else t :: acc)

/-- `get_full_description(amr_dict, nodes_to_labels, nodes_to_strings,
focus_node, ignore_focus_node)`: reconstruct the phrase for `focus`.  The
first statement reads `nodes_to_strings[focus_node]`, so a focus node with
no aligned tokens raises `KeyError`.  A PropBank-labelled focus recurses
into its first `:ARG1` child (unboundedly, hence the fuel); otherwise
`:mod` texts are each inserted at position 0 (reverse edge order), then
the first `:consist-of` and `:ARG1-of` fillers are pushed on the front,
then `:op1` or the focus text closes the phrase. -/
def getFullDescription (fuel : Nat) (amrD : String → String → List String)
    (labels strs : String → Option String) (focus : String)
    (ignoreFocusNode : Bool) : PRes String :=
  match fuel with
  | 0 => .div
  | fuel + 1 =>
    match strs focus with
    | none => .exn
    | some focusString =>
      match labels focus with
      | none => .exn
      | some lab =>
        if matchesPropbank lab then
          let step1 : PRes (List String) :=
            match amrD focus ":ARG1" with
            | [] => .ok []
            | a :: _ => do
              let d ← getFullDescription fuel amrD labels strs a false
              return if d ≠ "" then [d] else []
          do
          let ds ← step1
          return String.intercalate " "
            (if focusString ∈ ds then ds else focusString :: ds)
        else do
          let acc1 ← modTexts strs (amrD focus ":mod") []
          let acc2 ← addFirstArg amrD strs focus ":consist-of" acc1
          let acc3 ← addFirstArg amrD strs focus ":ARG1-of" acc2
          match amrD focus ":op1" with
          | o :: _ =>
            if acc3 = [] then do
              let acc4 := if ¬ignoreFocusNode ∧ focusString ∉ acc3 then
                acc3 ++ [focusString] else acc3
              match strs o with
              | none => .exn
              | some t => return String.intercalate " " (acc4 ++ [t])
            else
              return String.intercalate " "
                (if ¬ignoreFocusNode ∧ focusString ∉ acc3 then
                  acc3 ++ [focusString] else acc3)
          | [] =>
            return String.intercalate " "
              (if ¬ignoreFocusNode ∧ focusString ∉ acc3 then
                acc3 ++ [focusString] else acc3)

/-! ## X-Variable rule engine (`identify_x_variable_covid`) -/

/-- An `XVariable` mention (`entities.XVariable`): reconstructed text and
optional character span. -/
structure XVariable where
  text : Option String
  span : Option (Nat × Nat)
deriving DecidableEq, Repr

/-- The parts of a `Claim` object this engine reads: its document id, the
optional `claim_template`, and `get_offsets_for_text`.  The offsets method
depends on the external tokenizer, so beyond its leading
`if not text: return None` guard it is modelled by the oracle `offsets`. -/
structure ClaimData where
  docId : String
  claimTemplate : Option String
  offsets : String → Option (Nat × Nat)

/-- `claim.get_offsets_for_text(text)` including its guard for falsy
`text` (`None` or `""`). -/
def ClaimData.getOffsetsForText (c : ClaimData) (t : Option String) :
    Option (Nat × Nat) :=
  match t with
  | none => none
  | some s => if s = "" then none else c.offsets s

/-- The set `{"city", "state", "country", "continent"}`. -/
def placeTypes : List String := ["city", "state", "country", "continent"]

/-- The set `{"facility", "location", "place"}` (membership only). -/
def placeVariables : List String := ["facility", "location", "place"]

/-- Membership of an optional label in `place_types`
(Python `child_label in place_types`, where `None` is never a member). -/
def optIsPlaceType : Option String → Bool
  | none => false
  | some s => s ∈ placeTypes

/-- Loop of the place rule: first edge whose role is `:location` or
`:source` or whose child label is a place-type noun; full name if truthy,
else full description. -/
def xvPlaceSearch (fuel : Nat) (g : AMRGraph)
    (amrD : String → String → List String) (labels strs : String → Option String)
    (c : ClaimData) : List (String × String × String) → PRes (Option XVariable)
  | [] => .ok none
  | (_, role, child) :: rest =>
    if role == ":location" || role == ":source" || optIsPlaceType (labels child)
    then do
      let nm ← getFullNameValue amrD strs child
      if pyTruthy nm then
        return some ⟨nm, c.getOffsetsForText nm⟩
      else do
        let d ← getFullDescription fuel amrD labels strs child false
        return some ⟨some d, none⟩
    else xvPlaceSearch fuel g amrD labels strs c rest

/-- Loop of the person rule: first child labelled `person`; full name if
truthy, else the label `person` itself. -/
def xvPersonSearch (amrD : String → String → List String)
    (labels strs : String → Option String) (c : ClaimData) :
    List (String × String × String) → PRes (Option XVariable)
  | [] => .ok none
  | (_, _, child) :: rest =>
    if labels child == some "person" then do
      let nm ← getFullNameValue amrD strs child
      if pyTruthy nm then
        return some ⟨nm, c.getOffsetsForText nm⟩
      else
        return some ⟨some "person", c.getOffsetsForText (some "person")⟩
    else xvPersonSearch amrD labels strs c rest

/-- Loop of the target rule: `:ARG1` of a `target-01` predicate (the
parent label is read with `nodes_to_labels[parent]`, raising on a missing
node); full name if truthy, else full description with the focus text
ignored. -/
def xvTargetSearch (fuel : Nat) (amrD : String → String → List String)
    (labels strs : String → Option String) (c : ClaimData) :
    List (String × String × String) → PRes (Option XVariable)
  | [] => .ok none
  | (parent, role, child) :: rest =>
    match labels parent with
    | none => .exn
    | some pl =>
      if pl == "target-01" && role == ":ARG1" then do
        let nm ← getFullNameValue amrD strs child
        if pyTruthy nm then
          return some ⟨nm, c.getOffsetsForText nm⟩
        else do
          let d ← getFullDescription fuel amrD labels strs child true
          return some ⟨some d, none⟩
      else xvTargetSearch fuel amrD labels strs c rest

/-- Loop of the negative-effect rule: modifiers of an `affect-01` node. -/
def xvNegEffectSearch (fuel : Nat) (amrD : String → String → List String)
    (labels strs : String → Option String) (c : ClaimData) :
    List (String × String × String) → PRes (Option XVariable)
  | [] => .ok none
  | (parent, _, _) :: rest =>
    match labels parent with
    | none => .exn
    | some pl =>
      if pl == "affect-01" then do
        let d ← getFullDescription fuel amrD labels strs parent true
        return some ⟨some d, c.getOffsetsForText (some d)⟩
      else xvNegEffectSearch fuel amrD labels strs c rest

/-- Inner scan of the government rule over `amr_dict[child].values()`:
each place-typed value overwrites `full_name` with its full name (a value
missing from `nodes_to_labels` raises). -/
def govScanValues (amrD : String → String → List String)
    (labels strs : String → Option String) :
    List String → Option String → PRes (Option String)
  | [], acc => .ok acc
  | v :: rest, acc =>
    match labels v with
    | none => .exn
    | some lv =>
      if lv ∈ placeTypes then do
        let nm ← getFullNameValue amrD strs v
        govScanValues amrD labels strs rest nm
      else govScanValues amrD labels strs rest acc

/-- Loop of the government rule: under a `government-organization` parent,
resolve a place up to two edge hops down and append the literal word
`"government"` only when that token occurs in the sentence; otherwise the
first `:ARG0` edge to a place-typed child stands for its government. -/
def xvGovSearch (g : AMRGraph) (amrD : String → String → List String)
    (labels strs : String → Option String) (c : ClaimData) (addGov : Bool) :
    List (String × String × String) → PRes (Option XVariable)
  | [] => .ok none
  | (parent, role, child) :: rest =>
    match labels parent with
    | none => .exn
    | some pl =>
      if pl == "government-organization" then do
        let fullName ←
          match labels child with
          | none => PRes.exn
          | some cl =>
            if cl ∈ placeTypes then getFullNameValue amrD strs child
            else govScanValues amrD labels strs (g.roleValues child) none
        if pyTruthy fullName ∧ addGov then
          let fullGov := fullName.getD "" ++ " government"
          return some ⟨some fullGov, c.getOffsetsForText (some fullGov)⟩
        else
          return some ⟨fullName, c.getOffsetsForText fullName⟩
      else
        if role == ":ARG0" then
          match labels child with
          | none => .exn
          | some cl =>
            if (cl ∈ placeTypes : Bool) then do
              let nm ← getFullNameValue amrD strs child
              return some ⟨nm, c.getOffsetsForText nm⟩
            else xvGovSearch g amrD labels strs c addGov rest
        else xvGovSearch g amrD labels strs c addGov rest

/-- Loop of the date rule over the node dict: first node labelled
`date-entity`, fully described. -/
def xvDateSearch (fuel : Nat) (amrD : String → String → List String)
    (labels strs : String → Option String) (c : ClaimData) :
    List (String × String) → PRes (Option XVariable)
  | [] => .ok none
  | (node, lab) :: rest =>
    if lab == "date-entity" then do
      let d ← getFullDescription fuel amrD labels strs node false
      return some ⟨some d, c.getOffsetsForText (some d)⟩
    else xvDateSearch fuel amrD labels strs c rest

/-- The five predicate/role tests of the treatment rule
(`mislablled_treatment`, `treatment_in_arg3`, `shortens_infection`,
`prevents_death`, `treatment_is_approved`), merged over one label lookup
since each reads `nodes_to_labels[parent]`. -/
def treatmentCond (pl role : String) : Bool :=
  (pl == "treat-03" && role == ":ARG1") ||
  (pl == "treat-03" && role == ":ARG3") ||
  (pl == "shorten-01" && role == ":ARG0") ||
  (pl == "prevent-01" && role == ":ARG0") ||
  (pl == "approve-01" && role == ":ARG1")

/-- Loop of the treatment rule. -/
def xvTreatmentSearch (fuel : Nat) (amrD : String → String → List String)
    (labels strs : String → Option String) :
    List (String × String × String) → PRes (Option XVariable)
  | [] => .ok none
  | (parent, role, child) :: rest =>
    match labels parent with
    | none => .exn
    | some pl =>
      if treatmentCond pl role then do
        let d ← getFullDescription fuel amrD labels strs child false
        return some ⟨some d, none⟩
      else xvTreatmentSearch fuel amrD labels strs rest

/-- Loop of the medication rule: `:ARG1` of `safe-01`. -/
def xvMedicationSearch (fuel : Nat) (amrD : String → String → List String)
    (labels strs : String → Option String) :
    List (String × String × String) → PRes (Option XVariable)
  | [] => .ok none
  | (parent, role, child) :: rest =>
    match labels parent with
    | none => .exn
    | some pl =>
      if pl == "safe-01" && role == ":ARG1" then do
        let d ← getFullDescription fuel amrD labels strs child false
        return some ⟨some d, none⟩
      else xvMedicationSearch fuel amrD labels strs rest

/-- Loop of the positional agent/patient fallback rules: first edge out of
the root with the given role; full name if truthy, else full description
(neither variant records a span). -/
def xvRootArgSearch (fuel : Nat) (g : AMRGraph)
    (amrD : String → String → List String) (labels strs : String → Option String)
    (argRole : String) : List (String × String × String) → PRes (Option XVariable)
  | [] => .ok none
  | (parent, role, child) :: rest =>
    if parent == g.root && role == argRole then do
      let nm ← getFullNameValue amrD strs child
      if pyTruthy nm then
        return some ⟨nm, none⟩
      else do
        let d ← getFullDescription fuel amrD labels strs child false
        return some ⟨some d, none⟩
    else xvRootArgSearch fuel g amrD labels strs argRole rest

/-- Dispatch step shared by all templated rules of
`identify_x_variable_covid`: when the template test holds, run the rule's
graph search and return its result unless the search found nothing, in
which case control falls through to the rest of the `if` chain. -/
def tryRule (cond : Bool) (search rest : PRes (Option XVariable)) :
    PRes (Option XVariable) :=
  if cond then
    match search with
    | .ok none => rest
    | r => r
  else rest

/-- `identify_x_variable_covid(amr, alignments, claim)`: the ordered,
template-keyed rule chain of `amr_extraction_utils.py` lines 121-304. -/
def identifyXVariableCovid (fuel : Nat) (g : AMRGraph)
    (aligns : List AMRAlignment) (c : ClaimData) : PRes (Option XVariable) :=
  match c.claimTemplate with
  | none => .ok none
  | some t =>
    if t = "" then .ok none else do
    let strsM ← createNodeToTokenDict g aligns
    let amrD := g.edgeMapping
    let labels := g.labelOf
    let strs := fun n => alookup strsM n
    tryRule (placeVariables.any (fun p => strContains t (p ++ "-X")))
      (xvPlaceSearch fuel g amrD labels strs c g.edges) <|
    tryRule (strContains t "person-X")
      (xvPersonSearch amrD labels strs c g.edges) <|
    tryRule (strEnds t "is X")
      (do
        let d ← getFullDescription fuel amrD labels strs g.root false
        return some ⟨some d, c.getOffsetsForText (some d)⟩) <|
    tryRule (strStarts t "X was the target")
      (xvTargetSearch fuel amrD labels strs c g.edges) <|
    tryRule (strContains t "X negative effect")
      (xvNegEffectSearch fuel amrD labels strs c g.edges) <|
    tryRule (strContains t "Government-X")
      (xvGovSearch g amrD labels strs c ("government" ∈ g.tokens) g.edges) <|
    tryRule (strContains t "date-X")
      (xvDateSearch fuel amrD labels strs c g.nodes) <|
    tryRule (strContains t "Treatment-X" || strContains t "effective treatment")
      (xvTreatmentSearch fuel amrD labels strs g.edges) <|
    tryRule (strContains t "medication X")
      (xvMedicationSearch fuel amrD labels strs g.edges) <|
    tryRule (strContains t "Animal-X")
      (match amrD g.root ":ARG1" with
       | [] => .ok none
       | a :: _ => do
          let d ← getFullDescription fuel amrD labels strs a false
          return some ⟨some d, none⟩) <|
    tryRule (firstCharIs t 'X')
      (xvRootArgSearch fuel g amrD labels strs
        (if t = "X cures COVID-19" then ":ARG3" else ":ARG0") g.edges) <|
    tryRule (lastCharIs t 'X')
      (xvRootArgSearch fuel g amrD labels strs ":ARG1" g.edges) <|
    .ok none

/-! ## Claimer locator (`claimer_utils.py`) -/

/-- `is_desired_framenet_node(node_label)`: the label with its trailing
PropBank sense number stripped is a statement/reasoning verb.  The verb
set `FRAMENET_VERBS` is loaded at startup from the external FrameNet
resource, so it is a parameter here. -/
def isDesiredFramenetNode (fnVerbs : List String) (lab : String) : Bool :=
  rsplitBeforeLast '-' lab ∈ fnVerbs

/-- Loop of `get_claim_node_from_token` over the parents of the current
node, threading the shared mutable `checked_nodes` set: an already-checked
parent is skipped; a statement/reasoning parent is returned (an empty node
id turns into `None` by `str(parent_node) or None`); otherwise the parent
is added to `checked_nodes` and the search recurses from it (`recur`),
continuing with the next parent only when the recursion found nothing. -/
def goParents (recur : String → List String → PRes (Option String) × List String)
    (g : AMRGraph) (fn : List String) :
    List String → List String → PRes (Option String) × List String
  | [], checked => (.ok none, checked)
  | p :: rest, checked =>
    if p ∈ checked then goParents recur g fn rest checked
    else
      match g.labelOf p with
      | none => (.exn, checked)
      | some lab =>
        if isDesiredFramenetNode fn lab then
          (.ok (if p = "" then none else some p), checked)
        else
          match recur p (p :: checked) with
          | (.ok none, c2) => goParents recur g fn rest c2
          | r => r

/-- `get_claim_node_from_token(amr, node, checked_nodes)`: travel upward
from `node` looking for a statement/reasoning predicate.  Each recursive
descent is charged one unit of fuel; the Python function recurses without
any structural bound, relying on `checked_nodes` for termination. -/
def getClaimNodeFromToken (g : AMRGraph) (fn : List String) :
    Nat → String → List String → PRes (Option String) × List String
  | 0, _, checked => (.div, checked)
  | fuel + 1, node, checked =>
    goParents (getClaimNodeFromToken g fn fuel) g fn
      (g.parentsForNode node) checked

/-! ## Ontology disambiguator (`disambiguate_with_amr.py`) -/

/-- One declared argument role of an ontology entry.  Only `text_role` is
read by the code paths embedded here; the `constraints` list is carried
nowhere and therefore omitted.  The Python dict value is always nonempty,
so `qnode_args.get(framenet_arg)` is truthy exactly when the key exists. -/
structure ArgInfo where
  textRole : String
deriving DecidableEq, Repr

/-- One candidate record of an ontology table
(`{qnode, name, definition, args}`). -/
structure QnodeEntry where
  qnode : String
  name : String
  definition : Option String
  args : List (String × ArgInfo)
deriving DecidableEq, Repr

/-- The `appended_qnode_data` dict: it always holds the `"pb"` key, and
holds the merged candidate fields exactly when an entry was accepted
(`len(appended_qnode_data) > 1`). -/
structure BestQnode where
  pb : String
  entry : Option QnodeEntry
deriving DecidableEq, Repr

/-- `best_qnode.get("name")` (the dict is `{}` when the `Option` is
`none`). -/
def bqName : Option BestQnode → Option String
  | none => none
  | some b => b.entry.map (·.name)

/-- `best_qnode.get("qnode")`. -/
def bqQnode : Option BestQnode → Option String
  | none => none
  | some b => b.entry.map (·.qnode)

/-- `best_qnode.get("definition")`. -/
def bqDef : Option BestQnode → Option String
  | none => none
  | some b => b.entry.bind (·.definition)

/-- `best_qnode.get("pb")`. -/
def bqPb : Option BestQnode → Option String
  | none => none
  | some b => some b.pb

/-- `best_qnode.get("args")` as read by the truthiness test
`if best_qnode and best_qnode.get("args")`. -/
def bqArgs : Option BestQnode → List (String × ArgInfo)
  | none => []
  | some b => (b.entry.map (·.args)).getD []

/-- One record of the raw ontology table `qe_master.json` as consumed by
`get_most_general_qnode`: the entry's id and its parent ids.  (The record
also carries a name used only to fill an unread field of
`qnode_options_map`, omitted here.) -/
structure OrigEntry where
  id : String
  parents : List String
deriving DecidableEq, Repr

/-- `get_node_from_pb(amr, pb_label)`: first node id whose label is the
PropBank label, else `""`. -/
def getNodeFromPb (g : AMRGraph) (pb : String) : String :=
  ((g.nodes.find? (fun p => p.2 == pb)).map (·.1)).getD ""

/-- `is_valid_arg_type(arg_type)`. -/
def isValidArgType (argType : String) : Bool :=
  strContains argType "ARG" || strContains argType "time" ||
  strContains argType "location" || strContains argType "direction"

/-- `determine_argument_from_edge(event_node, edge)`. -/
def determineArgumentFromEdge (eventNode : String)
    (e : String × String × String) : Option String :=
  if e.2.2 == eventNode && strEnds e.2.1 "-of" then some e.1
  else if e.1 == eventNode && !(strEnds e.2.1 "-of") then some e.2.2
  else none

/-- `get_framenet_arg_role(pb_arg_role_label)`: strip `:` and `-of`, then
`ARGn → An`, `location`/`direction` → first three characters, `time`
unchanged.  (An empty formatted string would raise in Python; callers
guard with `is_valid_arg_type`, which forces a nonempty result.) -/
def getFramenetArgRole (pbRole : String) : String :=
  let f := replaceAll "-of" "" (replaceAll ":" "" pbRole)
  match f.data with
  | [] => f
  | ch :: _ =>
    if ch = 'A' then replaceAll "RG" "" f
    else if f = "location" ∨ f = "direction" then String.mk (f.data.take 3)
    else f

/-- The stop-word test of `get_all_labeled_args`:
`any(token_of_node.endswith(f" {stop_word}") for ...)`. -/
def endsWithStopWord (t : String) : Bool :=
  ["and", "or", "the", "a", "is", "are", "like", "in"].any
    (fun sw => strEnds t (" " ++ sw))

/-- Loop body fold of `get_all_labeled_args`: for each incident edge with
a valid argument role whose FrameNet code the ontology entry declares,
bind the entry's text role to the argument text (the node label with the
sense number stripped when no aligned tokens exist; the first word when
the aligned text ends in a stop word; the aligned text otherwise).
`amr.nodes[arg_node]` raises on a node id missing from the graph. -/
def labeledArgsLoop (g : AMRGraph) (strsM : List (String × String))
    (node : String) (qargs : List (String × ArgInfo)) :
    List (String × String × String) → List (String × String) →
    PRes (List (String × String))
  | [], acc => .ok acc
  | e :: rest, acc =>
    if isValidArgType e.2.1 then
      match determineArgumentFromEdge node e with
      | some argNode =>
        match alookup qargs (getFramenetArgRole e.2.1) with
        | some ai =>
          match alookup g.nodes argNode with
          | none => .exn
          | some nodeLabel =>
            let tokenOfNode := alookup strsM argNode
            let v :=
              if ¬pyTruthy tokenOfNode then rsplitBeforeLast '-' nodeLabel
              else if endsWithStopWord (tokenOfNode.getD "") then
                beforeFirstSpace (tokenOfNode.getD "")
              else tokenOfNode.getD ""
            labeledArgsLoop g strsM node qargs rest (upsert acc ai.textRole v)
        | none => labeledArgsLoop g strsM node qargs rest acc
      | none => labeledArgsLoop g strsM node qargs rest acc
    else labeledArgsLoop g strsM node qargs rest acc

/-- `get_all_labeled_args(amr, alignments, node, qnode_args)`. -/
def getAllLabeledArgs (g : AMRGraph) (aligns : List AMRAlignment)
    (node : String) (qargs : List (String × ArgInfo)) :
    PRes (List (String × String)) := do
  let strsM ← createNodeToTokenDict g aligns
  labeledArgsLoop g strsM node qargs (g.edgesForNode node) []

/-- The candidate record the external entity-search service
(`disambiguate_kgtk` plus the `options`/`all_options` selection) settles
on for a query, when any. -/
structure KgtkSel where
  rawName : Option String
  qnode : String
  definition : Option String
deriving DecidableEq, Repr

/-- A `ClaimArg` mention as built by `get_wikidata_for_labeled_args`. -/
structure ClaimArg where
  text : Option String
  docId : String
  span : Option (Nat × Nat)
  qnodeId : String
  description : Option String
  fromQuery : String
deriving DecidableEq, Repr

/-- `get_wikidata_for_labeled_args(amr, claim, args)`: for each bound role
whose text has no hyphen, query the external service (the oracle `kgtk`,
taking the sentence and the query span) and record the resulting
`ClaimArg` (possibly `None`). -/
def getWikidataForLabeledArgs (kgtk : String → String → Option KgtkSel)
    (g : AMRGraph) (c : ClaimData) (args : List (String × String)) :
    List (String × Option ClaimArg) :=
  args.foldl
    (fun acc (p : String × String) =>
      if ¬strContains p.2 "-" then
        let sel := kgtk (String.intercalate " " g.tokens) p.2
        let ca := sel.map (fun s =>
          ⟨s.rawName, c.docId, c.getOffsetsForText (some p.2), s.qnode,
            s.definition, p.2⟩)
        upsert acc p.1 ca
      else acc) []

/-- `get_string_bigrams(string)`: the set of character bigrams, as a
duplicate-free list. -/
def getStringBigrams (s : String) : List String :=
  ((List.range (s.data.length - 1)).map
    (fun x => String.mk ((s.data.drop x).take 2))).dedup

/-- The Dice coefficient `overlap * 2.0 / (len(A) + len(B))` between the
bigram sets of the PropBank verb stem and a candidate name, computed
exactly over `ℚ` (the Python float values are exact for these small
integer ratios).  In Python a zero denominator would raise; in `ℚ` the
quotient is 0 — callers guarded by the docstring's two-character
assumption never hit it. -/
def diceScore (pbString qname : String) : ℚ :=
  let a := getStringBigrams pbString
  let b := getStringBigrams qname
  let overlap := (a.filter (· ∈ b)).length
  (2 * overlap : ℚ) / ((a.length : ℚ) + (b.length : ℚ))

/-- The best-score fold of `get_best_qnode_by_string_similarity`: starting
from the first name with score `0.0`, a later name replaces the current
best only on a strictly greater score. -/
def bestNameScan (sc : String → ℚ) :
    List String → String × ℚ → String × ℚ
  | [], acc => acc
  | n :: rest, (bn, bs) =>
    if sc n > bs then bestNameScan sc rest (n, sc n)
    else bestNameScan sc rest (bn, bs)

/-- `get_best_qnode_by_string_similarity(pb, qnode_dicts)`: Dice-score
each candidate's canonical name against the PropBank label's verb stem
and keep the first-enumerated name with the strictly best score (the
first name also when every score is zero).  An empty candidate list would
raise `IndexError` in Python (`qnode_names[0]`); both call sites guard
with at least two candidates. -/
def getBestQnodeByStringSimilarity (pb : String)
    (qnodeDicts : List QnodeEntry) : Option QnodeEntry :=
  match qnodeDicts with
  | [] => none
  | _ =>
    let qnamesToDicts := buildDict (qnodeDicts.map (fun d => (d.name, d)))
    let qnodeNames := qnamesToDicts.map (·.1)
    let pbString := rsplitBeforeLast '-' pb
    let sc := fun qn => diceScore pbString qn
    let best := bestNameScan sc qnodeNames ((qnodeNames.head?).getD "", 0)
    alookup qnamesToDicts best.1

/-- The filtered-parents map `qnode_options_map` of
`get_most_general_qnode`: for each raw-ontology record whose id is a
candidate id, its parent ids after `parent.rsplit("_", 1)[-1]`. -/
def mgOptionsMap (qnodeIds : List String) (orig : List OrigEntry) :
    List (String × List String) :=
  orig.foldl
    (fun acc e =>
      if e.id ∈ qnodeIds then
        upsert acc e.id (e.parents.map (rsplitAfterLast '_'))
      else acc) []

/-- One pass of `narrow_down_qnode` over the current candidate list,
accumulating `keep_list`: a candidate whose canonical name equals `pb`
(the full PropBank label) is returned at once; otherwise its parents that
are themselves candidate ids are kept.  Looking up a candidate missing
from `qnode_options_map` raises `KeyError`. -/
def ndScan (recur : List String → PRes (Option String))
    (idsToQdicts : List (String × QnodeEntry))
    (optsMap : List (String × List String)) (pb : String) :
    List String → List String → PRes (Option String)
  | [], keep =>
    match keep with
    | [] => .ok none
    | [k] => .ok (some k)
    | ks => recur ks
  | q :: rest, keep =>
    match alookup idsToQdicts q with
    | none => .exn
    | some d =>
      if d.name == pb then .ok (some q)
      else
        match alookup optsMap q with
        | none => .exn
        | some parents =>
          ndScan recur idsToQdicts optsMap pb rest
            (keep ++ parents.filter (fun p => (alookup idsToQdicts p).isSome))

/-- `narrow_down_qnode(qnode_list)`: the recursive generalization search.
The Python recursion has no cycle guard, so each recursive call costs one
unit of fuel and `∀ fuel, … = .div` models divergence. -/
def narrowDown (idsToQdicts : List (String × QnodeEntry))
    (optsMap : List (String × List String)) (pb : String) :
    Nat → List String → PRes (Option String)
  | 0, _ => .div
  | fuel + 1, lst =>
    ndScan (narrowDown idsToQdicts optsMap pb fuel) idsToQdicts optsMap pb lst []

/-- `get_most_general_qnode(pb, qnode_dicts, original_mapping_path)`.
The Python `list(qnode_ids)` enumerates a set in unspecified order; here
the candidate ids are listed in first-insertion order (the theorems below
quantify over the candidate order anyway). -/
def getMostGeneralQnode (fuel : Nat) (pb : String)
    (qnodeDicts : List QnodeEntry) (orig : List OrigEntry) :
    PRes (Option QnodeEntry) :=
  let idsToQdicts := buildDict (qnodeDicts.map (fun d => (d.qnode, d)))
  let qnodeIds := idsToQdicts.map (·.1)
  let optsMap := mgOptionsMap qnodeIds orig
  match narrowDown idsToQdicts optsMap pb fuel qnodeIds with
  | .exn => .exn
  | .div => .div
  | .ok mostGeneral =>
    if pyTruthy mostGeneral then
      .ok (alookup idsToQdicts (mostGeneral.getD ""))
    else .ok none

/-- `get_overlay_result(pb_label_list, pb_mapping, root_label)`: first
label with table entries wins — a single entry directly, several entries
through the string-similarity tie-break. -/
def getOverlayResult (pbs : List String)
    (pbMapping : List (String × List QnodeEntry)) (rootLabel : String) :
    Option BestQnode × Bool :=
  match pbs with
  | [] => (none, false)
  | l :: rest =>
    match alookup pbMapping l with
    | some (d :: ds) =>
      if ds = [] then (some ⟨l, some d⟩, l == rootLabel)
      else
        match getBestQnodeByStringSimilarity l (d :: ds) with
        | some best => (some ⟨l, some best⟩, l == rootLabel)
        | none => getOverlayResult rest pbMapping rootLabel
    | _ => getOverlayResult rest pbMapping rootLabel

/-- `get_master_result(pb_label_list, pb_mapping, original_mapping,
root_label)`: like the overlay pass, but several entries go through the
generality tie-break first, falling back to string similarity. -/
def getMasterResult (fuel : Nat) (pbs : List String)
    (pbMapping : List (String × List QnodeEntry)) (orig : List OrigEntry)
    (rootLabel : String) : PRes (Option BestQnode × Bool) :=
  match pbs with
  | [] => .ok (none, false)
  | l :: rest =>
    match alookup pbMapping l with
    | some (d :: ds) =>
      if ds = [] then .ok (some ⟨l, some d⟩, l == rootLabel)
      else
        let backup := getBestQnodeByStringSimilarity l (d :: ds)
        match getMostGeneralQnode fuel l (d :: ds) orig with
        | .exn => .exn
        | .div => .div
        | .ok (some mg) => .ok (some ⟨l, some mg⟩, l == rootLabel)
        | .ok none =>
          match backup with
          | some b => .ok (some ⟨l, some b⟩, l == rootLabel)
          | none => getMasterResult fuel rest pbMapping orig rootLabel
    | _ => getMasterResult fuel rest pbMapping orig rootLabel

/-- Lines 167-181 of `disambiguate_with_amr`: overlay first; the master
pass runs only when the overlay found nothing or found a non-root match,
and its result replaces the overlay's exactly when it came from the root
label or the overlay produced nothing. -/
def selectBestQnode (fuel : Nat)
    (overlay master : List (String × List QnodeEntry)) (orig : List OrigEntry)
    (pbs : List String) (rootLabel : String) : PRes (Option BestQnode) :=
  let (o, oRoot) := getOverlayResult pbs overlay rootLabel
  if o.isNone || !oRoot then
    match getMasterResult fuel pbs master orig rootLabel with
    | .exn => .exn
    | .div => .div
    | .ok (m, mRoot) => .ok (if mRoot || o.isNone then m else o)
  else .ok o

/-- A `ClaimEvent` (`entities.ClaimEvent`). -/
structure ClaimEvent where
  text : Option String
  docId : String
  description : Option String
  fromQuery : Option String
  qnodeId : Option String
deriving DecidableEq, Repr

/-- A `ClaimSemantics` value: the disambiguated event plus the bound
argument roles. -/
structure ClaimSemantics where
  event : ClaimEvent
  args : List (String × Option ClaimArg)
deriving DecidableEq, Repr

/-- `disambiguate_with_amr(amr_sentence, amr_alignments, claim)`.  The two
derived tables are loaded (and derived once if missing) from disk; they
are parameters here, as is the raw ontology table and the external entity
search.  No PropBank-pattern label in the graph yields `None`; otherwise
the two-pass selection picks `best_qnode`, arguments are bound when the
selected entry declares roles, and a `ClaimSemantics` is always built
(with all-`None` event fields when both passes produced nothing). -/
def disambiguateWithAmr (fuel : Nat)
    (overlay master : List (String × List QnodeEntry)) (orig : List OrigEntry)
    (kgtk : String → String → Option KgtkSel) (g : AMRGraph)
    (aligns : List AMRAlignment) (c : ClaimData) :
    PRes (Option ClaimSemantics) :=
  let pbLabelList := g.orderedNodeLabels.filter matchFrameLabel
  match pbLabelList with
  | [] => .ok none
  | rootLabel :: _ => do
    let best ← selectBestQnode fuel overlay master orig pbLabelList rootLabel
    let wd ←
      if bqArgs best ≠ [] then do
        let labeled ← getAllLabeledArgs g aligns
          (getNodeFromPb g ((bqPb best).getD "")) (bqArgs best)
        pure (getWikidataForLabeledArgs kgtk g c labeled)
      else pure []
    return some ⟨⟨bqName best, c.docId, bqDef best, bqPb best, bqQnode best⟩, wd⟩

/-! ## Helper lemmas -/

theorem PRes.ok_bind {α β : Type} (a : α) (f : α → PRes β) :
    (PRes.ok a >>= f) = f a := rfl

theorem PRes.exn_bind {α β : Type} (f : α → PRes β) :
    ((PRes.exn : PRes α) >>= f) = PRes.exn := rfl

theorem PRes.div_bind {α β : Type} (f : α → PRes β) :
    ((PRes.div : PRes α) >>= f) = PRes.div := rfl

theorem alookup_eq_none {β : Type} (m : List (String × β)) (k : String) :
    alookup m k = none ↔ k ∉ m.map (·.1) := by
  simp only [alookup, Option.map_eq_none', List.find?_eq_none, beq_iff_eq,
    List.mem_map, not_exists]
  constructor
  · intro h p hp
    exact absurd hp.2 (h p hp.1)
  · intro h p hp
    exact fun hpk => h p ⟨hp, hpk⟩

theorem alookup_isSome {β : Type} (m : List (String × β)) (k : String) :
    (alookup m k).isSome = true ↔ k ∈ m.map (·.1) := by
  rw [Option.isSome_iff_ne_none, Ne, alookup_eq_none, not_not]

theorem alookup_of_nodup_mem {β : Type} (m : List (String × β))
    (hnd : (m.map (·.1)).Nodup) {k : String} {v : β} (hmem : (k, v) ∈ m) :
    alookup m k = some v := by
  induction m with
  | nil => simp at hmem
  | cons p rest ih =>
    simp only [List.map_cons, List.nodup_cons] at hnd
    rcases List.mem_cons.mp hmem with h | h
    · cases h
      simp [alookup, List.find?_cons_of_pos]
    · have hk : (p.1 == k) = false := by
        simp only [beq_eq_false_iff_ne, Ne]
        intro he
        exact hnd.1 (he ▸ (List.mem_map.mpr ⟨(k, v), h, rfl⟩))
      rw [alookup, List.find?_cons_of_neg _ (by simp [hk]), ← alookup]
      exact ih hnd.2 h

theorem buildDict_aux_eq {β : Type} (l acc : List (String × β))
    (h : (acc.map (·.1) ++ l.map (·.1)).Nodup) :
    l.foldl (fun a p => upsert a p.1 p.2) acc = acc ++ l := by
  induction l generalizing acc with
  | nil => simp
  | cons p rest ih =>
    have hnotin : p.1 ∉ acc.map (·.1) := by
      intro hmem
      exact (List.disjoint_of_nodup_append h) hmem (by simp)
    have hup : upsert acc p.1 p.2 = acc ++ [(p.1, p.2)] := by
      simp [upsert, Option.isSome_iff_exists,
        (alookup_eq_none acc p.1).mpr hnotin]
    simp only [List.foldl_cons, hup]
    rw [ih (acc ++ [(p.1, p.2)]) (by simpa using h)]
    simp

theorem buildDict_eq_of_nodup {β : Type} (l : List (String × β))
    (h : (l.map (·.1)).Nodup) : buildDict l = l := by
  simpa using buildDict_aux_eq l [] (by simpa using h)

/-! ## Claim C10 -/

theorem getOverlayResult_of_no_entry (pbs : List String)
    (tbl : List (String × List QnodeEntry)) (root : String)
    (h : ∀ l ∈ pbs, alookup tbl l = none) :
    getOverlayResult pbs tbl root = (none, false) := by
  induction pbs with
  | nil => rfl
  | cons l rest ih =>
    have hl := h l (by simp)
    simp only [getOverlayResult, hl]
    exact ih (fun x hx => h x (by simp [hx]))

theorem getMasterResult_of_no_entry (fuel : Nat) (pbs : List String)
    (tbl : List (String × List QnodeEntry)) (orig : List OrigEntry)
    (root : String) (h : ∀ l ∈ pbs, alookup tbl l = none) :
    getMasterResult fuel pbs tbl orig root = .ok (none, false) := by
  induction pbs with
  | nil => rfl
  | cons l rest ih =>
    have hl := h l (by simp)
    simp only [getMasterResult, hl]
    exact ih (fun x hx => h x (by simp [hx]))

/-- C10: when the graph holds at least one PropBank-pattern label but
neither table has an entry for any of those labels, `disambiguate_with_amr`
still does not return `None`: it returns a `ClaimSemantics` whose event has
`text`, `qnode_id`, `description` and `from_query` all `None` and whose
argument mapping is empty. -/
theorem claim10_theorem (fuel : Nat)
    (overlay master : List (String × List QnodeEntry)) (orig : List OrigEntry)
    (kgtk : String → String → Option KgtkSel) (g : AMRGraph)
    (aligns : List AMRAlignment) (c : ClaimData)
    (hne : g.orderedNodeLabels.filter matchFrameLabel ≠ [])
    (hov : ∀ l ∈ g.orderedNodeLabels.filter matchFrameLabel,
      alookup overlay l = none)
    (hma : ∀ l ∈ g.orderedNodeLabels.filter matchFrameLabel,
      alookup master l = none) :
    disambiguateWithAmr fuel overlay master orig kgtk g aligns c =
      .ok (some ⟨⟨none, c.docId, none, none, none⟩, []⟩) := by
  rcases hpb : g.orderedNodeLabels.filter matchFrameLabel with _ | ⟨r, rs⟩
  · exact absurd hpb hne
  · rw [hpb] at hov hma
    have hsel : selectBestQnode fuel overlay master orig (r :: rs) r =
        .ok none := by
      simp [selectBestQnode, getOverlayResult_of_no_entry _ _ _ hov,
        getMasterResult_of_no_entry _ _ _ _ _ hma]
    simp [disambiguateWithAmr, hpb, hsel, PRes.ok_bind, bqArgs, bqName,
      bqDef, bqPb, bqQnode, pure]

/-- Witness for C10 at a concrete graph and empty tables. -/
theorem claim10_witness :
    disambiguateWithAmr 7 [] []
      ([] : List OrigEntry) (fun _ _ => none)
      ⟨[("r", "say-01"), ("c", "country")], [("r", ":ARG0", "c")], "r",
        ["China", "says"]⟩ []
      ⟨"doc1", none, fun _ => none⟩ =
      .ok (some ⟨⟨none, "doc1", none, none, none⟩, []⟩) :=
  claim10_theorem 7 [] [] [] (fun _ _ => none) _ [] ⟨"doc1", none, fun _ => none⟩
    (by decide) (by intro l _; rfl) (by intro l _; rfl)

/-! ## Claim C6 -/

/-- C6: the selection rule of `disambiguate_with_amr`: an overlay entry
from the root label is selected with the master pass never consulted; a
non-root overlay entry is replaced by the master result exactly when that
result came from the root label; and with no overlay entry the master
result is selected unconditionally. -/
theorem claim6_theorem (fuel : Nat)
    (overlay master : List (String × List QnodeEntry)) (orig : List OrigEntry)
    (pbs : List String) (root : String) :
    (∀ b : BestQnode, getOverlayResult pbs overlay root = (some b, true) →
      selectBestQnode fuel overlay master orig pbs root = .ok (some b)) ∧
    (∀ (b : BestQnode) (m : Option BestQnode),
      getOverlayResult pbs overlay root = (some b, false) →
      getMasterResult fuel pbs master orig root = .ok (m, true) →
      selectBestQnode fuel overlay master orig pbs root = .ok m) ∧
    (∀ (b : BestQnode) (m : Option BestQnode),
      getOverlayResult pbs overlay root = (some b, false) →
      getMasterResult fuel pbs master orig root = .ok (m, false) →
      selectBestQnode fuel overlay master orig pbs root = .ok (some b)) ∧
    (∀ (m : Option BestQnode) (mr : Bool),
      getOverlayResult pbs overlay root = (none, false) →
      getMasterResult fuel pbs master orig root = .ok (m, mr) →
      selectBestQnode fuel overlay master orig pbs root = .ok m) := by
  refine ⟨?_, ?_, ?_, ?_⟩
  · intro b ho
    simp [selectBestQnode, ho]
  · intro b m ho hm
    simp [selectBestQnode, ho, hm]
  · intro b m ho hm
    simp [selectBestQnode, ho, hm]
  · intro m mr ho hm
    simp [selectBestQnode, ho, hm]

/-- Witness for C6: a root-label overlay hit is selected with an
arbitrary master table, and with an empty overlay the master result is
selected. -/
theorem claim6_witness :
    selectBestQnode 5 [("say-01", [⟨"Q9", "say", none, []⟩])]
      [("other-02", [⟨"Q1", "other", none, []⟩])] [] ["say-01"] "say-01" =
      .ok (some ⟨"say-01", some ⟨"Q9", "say", none, []⟩⟩) ∧
    selectBestQnode 5 [] [("say-01", [⟨"Q9", "say", none, []⟩])] []
      ["say-01", "low-03"] "say-01" =
      .ok (some ⟨"say-01", some ⟨"Q9", "say", none, []⟩⟩) :=
  ⟨(claim6_theorem 5 _ _ [] ["say-01"] "say-01").1 _ (by decide),
   (claim6_theorem 5 [] _ [] ["say-01", "low-03"] "say-01").2.2.2
     (some ⟨"say-01", some ⟨"Q9", "say", none, []⟩⟩) true
     (by decide) (by decide)⟩

/-! ## Claim C1 -/

/-- C1 counterexample: template exactly `"X cures COVID-19"`, root
`cure-01` with single outgoing edge `(root, ":ARG0", c)`, `c` aligned to
the token `"China"` and without `:name` child.  The claim predicts an
`XVariable` with text `"China"`; the code returns `None`, because for this
exact template the agent fallback searches for `:ARG3`. -/
theorem claim1_counterexample :
    identifyXVariableCovid 10
      ⟨[("c0", "cure-01"), ("c1", "country")], [("c0", ":ARG0", "c1")], "c0",
        ["China", "cures", "COVID-19"]⟩
      [⟨["c1"], [0]⟩] ⟨"d1", some "X cures COVID-19", fun _ => none⟩ =
      .ok none ∧
    (PRes.ok none : PRes (Option XVariable)) ≠
      .ok (some ⟨some "China", none⟩) := by
  constructor
  · rfl
  · decide

/-- C1 as amended: for a claim whose template is exactly
`"X cures COVID-19"` and whose graph has the single edge
`(root, ":ARG0", c)` with `c` aligned to `"China"`,
`identify_x_variable_covid` returns `None` (the agent fallback searches
the root's `:ARG3` for this exact template and finds no such edge). -/
theorem claim1_theorem (fuel : Nat) (g : AMRGraph) (aligns : List AMRAlignment)
    (did : String) (off : String → Option (Nat × Nat)) (r ch : String)
    (sm : List (String × String)) (hroot : g.root = r)
    (hedges : g.edges = [(r, ":ARG0", ch)])
    (hsm : createNodeToTokenDict g aligns = .ok sm)
    (_halign : alookup sm ch = some "China") :
    identifyXVariableCovid fuel g aligns ⟨did, some "X cures COVID-19", off⟩ =
      .ok none := by
  have h1 : (placeVariables.any
      (fun p => strContains "X cures COVID-19" (p ++ "-X"))) = false := by decide
  have h2 : strContains "X cures COVID-19" "person-X" = false := by decide
  have h3 : strEnds "X cures COVID-19" "is X" = false := by decide
  have h4 : strStarts "X cures COVID-19" "X was the target" = false := by decide
  have h5 : strContains "X cures COVID-19" "X negative effect" = false := by
    decide
  have h6 : strContains "X cures COVID-19" "Government-X" = false := by decide
  have h7 : strContains "X cures COVID-19" "date-X" = false := by decide
  have h8 : (strContains "X cures COVID-19" "Treatment-X" ||
      strContains "X cures COVID-19" "effective treatment") = false := by decide
  have h9 : strContains "X cures COVID-19" "medication X" = false := by decide
  have h10 : strContains "X cures COVID-19" "Animal-X" = false := by decide
  have h11 : firstCharIs "X cures COVID-19" 'X' = true := by decide
  have h12 : lastCharIs "X cures COVID-19" 'X' = false := by decide
  have hagent : xvRootArgSearch fuel g g.edgeMapping g.labelOf
      (fun n => alookup sm n) ":ARG3" g.edges = .ok none := by
    rw [hedges]
    simp [xvRootArgSearch, hroot]
  simp [identifyXVariableCovid, hsm, PRes.ok_bind, tryRule, h1, h2, h3, h4,
    h5, h6, h7, h8, h9, h10, h11, h12, hagent]

/-- Witness for C1's amended statement at a concrete graph. -/
theorem claim1_witness :
    identifyXVariableCovid 9
      ⟨[("r0", "cure-01"), ("n1", "country")], [("r0", ":ARG0", "n1")], "r0",
        ["China", "cures", "COVID-19"]⟩
      [⟨["n1"], [0]⟩] ⟨"d2", some "X cures COVID-19", fun _ => none⟩ =
      .ok none :=
  claim1_theorem 9 _ _ "d2" (fun _ => none) "r0" "n1" [("n1", "China")]
    rfl rfl (by rfl) (by rfl)

/-! ## Claim C3 -/

/-- C3 counterexample: the template starts with `"X was the target"` (and
so also has first character `X`); the target rule matches the template but
its search finds no `target-01`, and the code returns the later agent
rule's result (text `"China"`) instead of the target rule's `None`. -/
theorem claim3_counterexample :
    identifyXVariableCovid 10
      ⟨[("r", "spread-01"), ("c", "country")], [("r", ":ARG0", "c")], "r",
        ["China"]⟩
      [⟨["c"], [0]⟩]
      ⟨"d3", some "X was the target of coronavirus", fun _ => none⟩ =
      .ok (some ⟨some "China", none⟩) ∧
    (PRes.ok (some (⟨some "China", none⟩ : XVariable))) ≠ .ok none := by
  constructor
  · rfl
  · decide

/-- C3 as amended: the first rule whose template test matches and whose
graph search finds a match determines the result; a matching rule whose
search finds nothing falls through to the later rules.  Concretely, for
the template `"X was the target of coronavirus"` the result is the target
rule's when its search succeeds, and otherwise the agent (`:ARG0` of
root) rule's. -/
theorem claim3_theorem (fuel : Nat) (g : AMRGraph) (aligns : List AMRAlignment)
    (did : String) (off : String → Option (Nat × Nat)) :
    identifyXVariableCovid fuel g aligns
      ⟨did, some "X was the target of coronavirus", off⟩ =
      (createNodeToTokenDict g aligns) >>= (fun sm =>
        match xvTargetSearch fuel g.edgeMapping g.labelOf
            (fun n => alookup sm n)
            ⟨did, some "X was the target of coronavirus", off⟩ g.edges with
        | .ok none => xvRootArgSearch fuel g g.edgeMapping g.labelOf
            (fun n => alookup sm n) ":ARG0" g.edges
        | r => r) := by
  have h1 : (placeVariables.any
      (fun p => strContains "X was the target of coronavirus" (p ++ "-X"))) =
      false := by decide
  have h2 : strContains "X was the target of coronavirus" "person-X" =
      false := by decide
  have h3 : strEnds "X was the target of coronavirus" "is X" = false := by
    decide
  have h4 : strStarts "X was the target of coronavirus" "X was the target" =
      true := by decide
  have h5 : strContains "X was the target of coronavirus" "X negative effect" =
      false := by decide
  have h6 : strContains "X was the target of coronavirus" "Government-X" =
      false := by decide
  have h7 : strContains "X was the target of coronavirus" "date-X" = false := by
    decide
  have h8 : (strContains "X was the target of coronavirus" "Treatment-X" ||
      strContains "X was the target of coronavirus" "effective treatment") =
      false := by decide
  have h9 : strContains "X was the target of coronavirus" "medication X" =
      false := by decide
  have h10 : strContains "X was the target of coronavirus" "Animal-X" =
      false := by decide
  have h11 : firstCharIs "X was the target of coronavirus" 'X' = true := by
    decide
  have h12 : lastCharIs "X was the target of coronavirus" 'X' = false := by
    decide
  cases hsm : createNodeToTokenDict g aligns with
  | exn => simp [identifyXVariableCovid, hsm, PRes.exn_bind]
  | div => simp [identifyXVariableCovid, hsm, PRes.div_bind]
  | ok sm =>
    simp only [identifyXVariableCovid, hsm, PRes.ok_bind, tryRule, h1, h2, h3,
      h4, h5, h6, h7, h8, h9, h10, h11, h12, Bool.false_eq_true, if_false,
      if_true]
    rw [if_neg (show ¬("X was the target of coronavirus" = "") by decide),
      if_neg (show ¬("X was the target of coronavirus" = "X cures COVID-19")
        by decide)]
    cases htr : xvTargetSearch fuel g.edgeMapping g.labelOf
        (fun n => alookup sm n)
        ⟨did, some "X was the target of coronavirus", off⟩ g.edges with
    | ok o =>
      cases o with
      | none =>
        cases har : xvRootArgSearch fuel g g.edgeMapping g.labelOf
            (fun n => alookup sm n) ":ARG0" g.edges with
        | ok o2 => cases o2 <;> rfl
        | exn => rfl
        | div => rfl
      | some xv => rfl
    | exn => rfl
    | div => rfl

/-! ## Claim C5 -/

/-- C5 counterexample: a node with no aligned tokens (absent from the
node-to-text mapping) makes `get_full_description` raise `KeyError`
(`nodes_to_strings[focus_node]`) instead of returning a value. -/
theorem claim5_counterexample :
    (do
      let m ← createNodeToTokenDict
        ⟨[("n", "water")], [], "n", ["water"]⟩ []
      getFullDescription 5
        (AMRGraph.edgeMapping ⟨[("n", "water")], [], "n", ["water"]⟩)
        (AMRGraph.labelOf ⟨[("n", "water")], [], "n", ["water"]⟩)
        (fun x => alookup m x) "n" false) = .exn := by
  rfl

theorem collectStrs_ok (strs : String → Option String) (l : List String)
    (h : ∀ m ∈ l, (strs m).isSome) : ∃ ts, collectStrs strs l = .ok ts := by
  induction l with
  | nil => exact ⟨[], rfl⟩
  | cons n rest ih =>
    obtain ⟨t, ht⟩ := Option.isSome_iff_exists.mp (h n (by simp))
    obtain ⟨ts, hts⟩ := ih (fun m hm => h m (by simp [hm]))
    exact ⟨t :: ts, by simp [collectStrs, ht, hts, PRes.ok_bind, pure]⟩

/-- C5 as amended: `get_full_name_value` indeed returns a (possibly
`None`) value without raising whenever every `:name` child of the node is
aligned — in particular for any node without `:name` children — but
`get_full_description` raises `KeyError` on every focus node that is
absent from the node-to-text mapping, whatever the graph. -/
theorem claim5_theorem :
    (∀ (amrD : String → String → List String) (strs : String → Option String)
        (node : String),
      (∀ m ∈ amrD node ":name", (strs m).isSome) →
      ∃ v, getFullNameValue amrD strs node = .ok v) ∧
    (∀ (amrD : String → String → List String)
        (labels strs : String → Option String) (node : String) (ig : Bool)
        (fuel : Nat),
      strs node = none →
      getFullDescription (fuel + 1) amrD labels strs node ig = .exn) := by
  constructor
  · intro amrD strs node h
    cases hn : amrD node ":name" with
    | nil => exact ⟨none, by simp [getFullNameValue, hn]⟩
    | cons m ms =>
      rw [hn] at h
      obtain ⟨ts, hts⟩ := collectStrs_ok strs (m :: ms) h
      exact ⟨some (String.intercalate " " ts),
        by simp [getFullNameValue, hn, hts, PRes.ok_bind, pure]⟩
  · intro amrD labels strs node ig fuel h
    simp [getFullDescription, h]

/-- Witness for C5's amended statement: a node whose `:name` children are
all aligned gets a value, and an unaligned focus node raises. -/
theorem claim5_witness :
    (∃ v, getFullNameValue (fun _ _ => ["m"])
      (fun x => if x = "m" then some "Wuhan" else none) "n" = .ok v) ∧
    getFullDescription 4 (fun _ _ => []) (fun _ => some "city")
      (fun _ => none) "n" false = .exn :=
  ⟨claim5_theorem.1 _ _ "n" (by intro m hm; simp at hm; simp [hm]),
   claim5_theorem.2 _ _ _ "n" false 3 rfl⟩

/-! ## Claim C9 -/

/-- C9 counterexample: focus node `n` (label `water`, aligned `"water"`)
with `:mod` children `m1` (`"salt"`) then `m2` (`"hot"`) in that edge
order.  The claim predicts `"salt hot water"` (mods in edge order); the
code returns `"hot salt water"` (mods reversed by `insert(0, ...)`). -/
theorem claim9_counterexample :
    (do
      let m ← createNodeToTokenDict
        ⟨[("n", "water"), ("m1", "salt"), ("m2", "hot")],
          [("n", ":mod", "m1"), ("n", ":mod", "m2")], "n",
          ["hot", "salt", "water"]⟩
        [⟨["n"], [2]⟩, ⟨["m1"], [1]⟩, ⟨["m2"], [0]⟩]
      getFullDescription 5
        (AMRGraph.edgeMapping ⟨[("n", "water"), ("m1", "salt"), ("m2", "hot")],
          [("n", ":mod", "m1"), ("n", ":mod", "m2")], "n",
          ["hot", "salt", "water"]⟩)
        (AMRGraph.labelOf ⟨[("n", "water"), ("m1", "salt"), ("m2", "hot")],
          [("n", ":mod", "m1"), ("n", ":mod", "m2")], "n",
          ["hot", "salt", "water"]⟩)
        (fun x => alookup m x) "n" false) = .ok "hot salt water" ∧
    (PRes.ok "hot salt water") ≠ .ok "salt hot water" := by
  constructor
  · rfl
  · decide

theorem modTexts_ok (strs : String → Option String) (ms : List String)
    (f : String → String) (h : ∀ m ∈ ms, strs m = some (f m)) :
    ∀ acc, modTexts strs ms acc = .ok ((ms.map f).reverse ++ acc) := by
  induction ms with
  | nil => intro acc; rfl
  | cons m rest ih =>
    intro acc
    have hm := h m (by simp)
    simp only [modTexts, hm]
    rw [ih (fun x hx => h x (by simp [hx])) (f m :: acc)]
    simp

/-- C9 as amended: for a non-PropBank focus node with at least two `:mod`
children (all aligned, texts pairwise fresh), the `:mod` texts precede the
focus text in REVERSE edge order; the `:ARG1-of` and `:consist-of`
fillers, when present, precede the `:mod` texts (in that order). -/
theorem claim9_theorem (amrD : String → String → List String)
    (labels strs : String → Option String) (focus lab tf : String)
    (fuel : Nat) (ms : List String) (f : String → String)
    (hlab : labels focus = some lab) (hpb : matchesPropbank lab = false)
    (htf : strs focus = some tf) (hms : amrD focus ":mod" = ms)
    (hlen : 2 ≤ ms.length)
    (hstrs : ∀ m ∈ ms, strs m = some (f m)) :
    (amrD focus ":consist-of" = [] → amrD focus ":ARG1-of" = [] →
      tf ∉ (ms.map f).reverse →
      getFullDescription (fuel + 1) amrD labels strs focus false =
        .ok (String.intercalate " " ((ms.map f).reverse ++ [tf]))) ∧
    (∀ c0 cc a0 aa tc ta,
      amrD focus ":consist-of" = c0 :: cc → amrD focus ":ARG1-of" = a0 :: aa →
      strs c0 = some tc → strs a0 = some ta → tc ∉ (ms.map f).reverse →
      ta ∉ tc :: (ms.map f).reverse → tf ∉ ta :: tc :: (ms.map f).reverse →
      getFullDescription (fuel + 1) amrD labels strs focus false =
        .ok (String.intercalate " "
          (ta :: tc :: (ms.map f).reverse ++ [tf]))) := by
  have hmnil : ms ≠ [] := by
    intro h
    rw [h] at hlen
    simp at hlen
  have hrevne : (ms.map f).reverse ≠ [] := by
    simpa using hmnil
  constructor
  · intro hco har htffresh
    rw [getFullDescription, htf, hlab]
    simp only [hpb, Bool.false_eq_true, if_false]
    rw [hms, modTexts_ok strs ms f hstrs []]
    simp only [List.append_nil, PRes.ok_bind]
    rw [addFirstArg, hco, PRes.ok_bind, addFirstArg, har, PRes.ok_bind]
    cases hop : amrD focus ":op1" with
    | nil => simp [htffresh, pure]
    | cons o oo => simp [hrevne, htffresh, pure]
  · intro c0 cc a0 aa tc ta hco har htc hta hfresh1 hfresh2 hfresh3
    rw [getFullDescription, htf, hlab]
    simp only [hpb, Bool.false_eq_true, if_false]
    rw [hms, modTexts_ok strs ms f hstrs []]
    simp only [List.append_nil, PRes.ok_bind]
    simp only [addFirstArg, hco, har, htc, hta, PRes.ok_bind]
    rw [if_neg hfresh1, if_neg hfresh2]
    cases hop : amrD focus ":op1" with
    | nil => simp [pure, hfresh3]
    | cons o oo => simp [pure, hfresh3]

/-- Witness for C9's amended statement on a concrete graph ("hot salt
water" and "pure icy salt water"). -/
theorem claim9_witness :
    getFullDescription 4
      (AMRGraph.edgeMapping ⟨[], [("n", ":mod", "m1"), ("n", ":mod", "m2")],
        "n", []⟩)
      (fun x => if x = "n" then some "water" else some "x")
      (fun x => if x = "n" then some "water"
        else if x = "m1" then some "salt"
        else if x = "m2" then some "hot" else none)
      "n" false = .ok "hot salt water" :=
  (claim9_theorem _ _ _ "n" "water" "water" 3 ["m1", "m2"]
    (fun x => if x = "m1" then "salt" else "hot")
    rfl (by decide) rfl rfl (by decide)
    (by intro m hm; fin_cases hm <;> rfl)).1 rfl rfl (by decide)

/-! ## Claim C2 -/

theorem alookup_cons {β : Type} (pk : String) (pv : β)
    (rest : List (String × β)) (k : String) :
    alookup ((pk, pv) :: rest) k = if pk = k then some pv else alookup rest k := by
  by_cases h : pk = k
  · rw [if_pos h, alookup, List.find?_cons_of_pos _ (by simpa using h)]
    rfl
  · rw [if_neg h, alookup, List.find?_cons_of_neg _ (by simpa using h), ← alookup]

theorem alookup_map_replace {β : Type} (m : List (String × β)) (k k' : String)
    (v : β) :
    alookup (m.map (fun p => if p.1 == k then (p.1, v) else p)) k' =
      if k' = k then (alookup m k).map (fun _ => v) else alookup m k' := by
  induction m with
  | nil => by_cases hk' : k' = k <;> simp [alookup, hk']
  | cons p rest ih =>
    rcases p with ⟨pk, pv⟩
    simp only [List.map_cons, beq_iff_eq]
    simp only [beq_iff_eq] at ih
    by_cases hpk : pk = k
    · subst hpk
      by_cases hk' : k' = pk
      · subst hk'
        simp [alookup_cons]
      · have h1 : ¬pk = k' := fun h => hk' h.symm
        simp [alookup_cons, h1, hk', ih]
    · by_cases hk' : k' = k
      · subst hk'
        simp [alookup_cons, hpk, ih]
      · by_cases hpk' : pk = k'
        · subst hpk'
          simp [alookup_cons, hpk, hk', ih]
        · simp [alookup_cons, hpk, hk', hpk', ih]

theorem alookup_append {β : Type} (m l : List (String × β)) (k : String) :
    alookup (m ++ l) k = (alookup m k).or (alookup l k) := by
  rw [alookup, List.find?_append]
  cases h : m.find? (fun p => p.1 == k) with
  | none => simp [alookup, h]
  | some p => simp [alookup, h]

theorem alookup_upsert {β : Type} (m : List (String × β)) (k : String) (v : β)
    (k' : String) :
    alookup (upsert m k v) k' = if k' = k then some v else alookup m k' := by
  by_cases hk : (alookup m k).isSome
  · rw [upsert, if_pos hk, alookup_map_replace]
    obtain ⟨w, hw⟩ := Option.isSome_iff_exists.mp hk
    by_cases hk' : k' = k <;> simp [hk', hw]
  · rw [upsert, if_neg hk, alookup_append]
    by_cases hk' : k' = k
    · subst hk'
      rw [Option.not_isSome_iff_eq_none] at hk
      rw [hk, alookup_cons, if_pos rfl]
      simp
    · rw [if_neg hk', alookup_cons, if_neg (fun h => hk' h.symm)]
      simp [alookup]

theorem mgOptionsMap_aux_isSome (orig : List OrigEntry) (ids : List String)
    (q : String) (acc : List (String × List String))
    (h : (alookup acc q).isSome ∨ (q ∈ orig.map (·.id) ∧ q ∈ ids)) :
    (alookup (orig.foldl
      (fun a e => if e.id ∈ ids then
        upsert a e.id (e.parents.map (rsplitAfterLast '_')) else a) acc)
      q).isSome := by
  induction orig generalizing acc with
  | nil =>
    rcases h with h | h
    · simpa using h
    · simp at h
  | cons e rest ih =>
    simp only [List.foldl_cons]
    rcases h with h | ⟨hq, hids⟩
    · refine ih _ (Or.inl ?_)
      by_cases he : e.id ∈ ids
      · rw [if_pos he, alookup_upsert]
        by_cases heq : q = e.id <;> simp [heq, h]
      · simpa [he] using h
    · rcases List.mem_map.mp hq with ⟨e', he', hid⟩
      rcases List.mem_cons.mp he' with h1 | h1
      · subst h1
        refine ih _ (Or.inl ?_)
        rw [hid, if_pos hids, alookup_upsert]
        simp
      · exact ih _ (Or.inr ⟨List.mem_map.mpr ⟨e', h1, hid⟩, hids⟩)

theorem mgOptionsMap_isSome (ids : List String) (orig : List OrigEntry)
    (q : String) (hq : q ∈ ids) (ho : q ∈ orig.map (·.id)) :
    (alookup (mgOptionsMap ids orig) q).isSome :=
  mgOptionsMap_aux_isSome orig ids q [] (Or.inr ⟨ho, hq⟩)

theorem alookup_mem {β : Type} (m : List (String × β)) (k : String) (v : β)
    (h : alookup m k = some v) : (k, v) ∈ m := by
  rw [alookup] at h
  cases hf : m.find? (fun p => p.1 == k) with
  | none => rw [hf] at h; simp at h
  | some p =>
    rw [hf] at h
    have hp := List.find?_some hf
    have hmem := List.mem_of_find?_eq_some hf
    rcases p with ⟨pk, pv⟩
    simp only [beq_iff_eq] at hp
    simp only [Option.map_some', Option.some_inj] at h
    rw [← hp, ← h]
    exact hmem

theorem ndScan_finds (recur : List String → PRes (Option String))
    (I : List (String × QnodeEntry)) (O : List (String × List String))
    (pb : String) :
    ∀ lst keep,
      (∀ q ∈ lst, (alookup I q).isSome ∧ (alookup O q).isSome) →
      (∃ q ∈ lst, ∃ dq, alookup I q = some dq ∧ dq.name = pb) →
      ∃ q dq, ndScan recur I O pb lst keep = .ok (some q) ∧
        alookup I q = some dq ∧ dq.name = pb := by
  intro lst
  induction lst with
  | nil =>
    intro keep _ hex
    simp at hex
  | cons q rest ih =>
    intro keep hall hex
    obtain ⟨dq, hdq⟩ := Option.isSome_iff_exists.mp (hall q (by simp)).1
    by_cases hmatch : dq.name = pb
    · exact ⟨q, dq, by simp [ndScan, hdq, hmatch], hdq, hmatch⟩
    · obtain ⟨ps, hps⟩ := Option.isSome_iff_exists.mp (hall q (by simp)).2
      have hstep : ndScan recur I O pb (q :: rest) keep =
          ndScan recur I O pb rest
            (keep ++ ps.filter (fun p => (alookup I p).isSome)) := by
        simp [ndScan, hdq, hps, hmatch]
      rw [hstep]
      refine ih _ (fun x hx => hall x (by simp [hx])) ?_
      obtain ⟨q', hq', dq', hdq', hname'⟩ := hex
      rcases List.mem_cons.mp hq' with h1 | h1
      · subst h1
        rw [hdq] at hdq'
        cases hdq'
        exact absurd hname' hmatch
      · exact ⟨q', h1, dq', hdq', hname'⟩

/-- C2 counterexample: label `"treat-03"` with a candidate whose canonical
name is exactly the verb stem `"treat"` — the claim predicts the exact-name
short-circuit returns it, but the code compares names against the full
label, finds no generalization (no parent links within the set), and
returns `None`. -/
theorem claim2_counterexample :
    getMostGeneralQnode 10 "treat-03"
      [⟨"Q1", "treat", none, []⟩, ⟨"Q2", "foo", none, []⟩,
        ⟨"Q3", "bar", none, []⟩]
      [⟨"Q1", []⟩, ⟨"Q2", []⟩, ⟨"Q3", []⟩] = .ok none ∧
    (PRes.ok (none : Option QnodeEntry)) ≠
      .ok (some ⟨"Q1", "treat", none, []⟩) := by
  constructor
  · rfl
  · decide

/-- C2 as amended: the exact-name short-circuit of `narrow_down_qnode`
fires on a candidate whose canonical name equals the FULL PropBank label
(stem plus sense number), not its verb stem.  When exactly one candidate
carries that name (candidate qnode ids distinct and nonempty, all present
in the raw ontology table), `get_most_general_qnode` returns that
candidate regardless of the candidates' enumeration order and of the
parent links. -/
theorem claim2_theorem (pb : String) (qdicts : List QnodeEntry)
    (orig : List OrigEntry) (d0 : QnodeEntry) (fuel : Nat)
    (hnodup : (qdicts.map (·.qnode)).Nodup) (hd0 : d0 ∈ qdicts)
    (hname : d0.name = pb) (huniq : ∀ d ∈ qdicts, d.name = pb → d = d0)
    (hq0 : d0.qnode ≠ "")
    (hcov : ∀ d ∈ qdicts, d.qnode ∈ orig.map (·.id)) :
    getMostGeneralQnode (fuel + 1) pb qdicts orig = .ok (some d0) := by
  have hkeys : (qdicts.map (fun d => (d.qnode, d))).map (·.1) =
      qdicts.map (·.qnode) := by
    simp
  have hbd : buildDict (qdicts.map (fun d => (d.qnode, d))) =
      qdicts.map (fun d => (d.qnode, d)) :=
    buildDict_eq_of_nodup _ (by rw [hkeys]; exact hnodup)
  have hlook0 : alookup (qdicts.map (fun d => (d.qnode, d))) d0.qnode =
      some d0 :=
    alookup_of_nodup_mem _ (by rw [hkeys]; exact hnodup)
      (List.mem_map.mpr ⟨d0, hd0, rfl⟩)
  have hall : ∀ q ∈ (qdicts.map (fun d => (d.qnode, d))).map (·.1),
      (alookup (qdicts.map (fun d => (d.qnode, d))) q).isSome ∧
      (alookup (mgOptionsMap
        ((qdicts.map (fun d => (d.qnode, d))).map (·.1)) orig) q).isSome := by
    intro q hq
    refine ⟨(alookup_isSome _ _).mpr hq, ?_⟩
    refine mgOptionsMap_isSome _ _ _ hq ?_
    rw [hkeys] at hq
    obtain ⟨d, hd, hdq⟩ := List.mem_map.mp hq
    exact hdq ▸ hcov d hd
  have hex : ∃ q ∈ (qdicts.map (fun d => (d.qnode, d))).map (·.1),
      ∃ dq, alookup (qdicts.map (fun d => (d.qnode, d))) q = some dq ∧
        dq.name = pb := by
    refine ⟨d0.qnode, ?_, d0, hlook0, hname⟩
    rw [hkeys]
    exact List.mem_map.mpr ⟨d0, hd0, rfl⟩
  obtain ⟨q, dq, hscan, hdq, hnm⟩ :=
    ndScan_finds
      (narrowDown (qdicts.map (fun d => (d.qnode, d)))
        (mgOptionsMap ((qdicts.map (fun d => (d.qnode, d))).map (·.1)) orig)
        pb fuel)
      _ _ pb ((qdicts.map (fun d => (d.qnode, d))).map (·.1)) [] hall hex
  have hdmem : (q, dq) ∈ qdicts.map (fun d => (d.qnode, d)) :=
    alookup_mem _ _ _ hdq
  obtain ⟨d, hd, hpair⟩ := List.mem_map.mp hdmem
  have hdq_eq : dq = d := by
    have := congrArg Prod.snd hpair
    simpa using this.symm
  have hq_eq : q = d.qnode := by
    have := congrArg Prod.fst hpair
    simpa using this.symm
  have hd_d0 : d = d0 := huniq d hd (hdq_eq ▸ hnm)
  simp only [getMostGeneralQnode, hbd, narrowDown, hscan, hq_eq, hd_d0]
  simp [pyTruthy, hq0, hlook0]

/-- Witness for C2's amended statement: a candidate literally named
`"treat-03"` is selected whatever the parent links. -/
theorem claim2_witness :
    getMostGeneralQnode 6 "treat-03"
      [⟨"Q1", "other", none, []⟩, ⟨"Q2", "treat-03", none, []⟩,
        ⟨"Q3", "x", none, []⟩]
      [⟨"Q1", ["Q3"]⟩, ⟨"Q2", ["Q1"]⟩, ⟨"Q3", []⟩] =
      .ok (some ⟨"Q2", "treat-03", none, []⟩) :=
  claim2_theorem "treat-03" _ _ ⟨"Q2", "treat-03", none, []⟩ 5
    (by decide) (by decide) rfl
    (by intro d hd hn; fin_cases hd <;> first | rfl | simp at hn)
    (by decide) (by intro d hd; fin_cases hd <;> decide)

/-! ## Claim C4 -/

theorem narrowDown_cyc_div (fuel : Nat) :
    narrowDown [("QA", ⟨"QA", "a", none, []⟩), ("QB", ⟨"QB", "b", none, []⟩)]
      [("QA", ["QB"]), ("QB", ["QA"])] "x-00" fuel ["QA", "QB"] = .div ∧
    narrowDown [("QA", ⟨"QA", "a", none, []⟩), ("QB", ⟨"QB", "b", none, []⟩)]
      [("QA", ["QB"]), ("QB", ["QA"])] "x-00" fuel ["QB", "QA"] = .div := by
  induction fuel with
  | zero => exact ⟨rfl, rfl⟩
  | succ n ih =>
    refine ⟨?_, ?_⟩
    · have hstep : narrowDown
          [("QA", ⟨"QA", "a", none, []⟩), ("QB", ⟨"QB", "b", none, []⟩)]
          [("QA", ["QB"]), ("QB", ["QA"])] "x-00" (n + 1) ["QA", "QB"] =
          narrowDown
            [("QA", ⟨"QA", "a", none, []⟩), ("QB", ⟨"QB", "b", none, []⟩)]
            [("QA", ["QB"]), ("QB", ["QA"])] "x-00" n ["QB", "QA"] := rfl
      rw [hstep]
      exact ih.2
    · have hstep : narrowDown
          [("QA", ⟨"QA", "a", none, []⟩), ("QB", ⟨"QB", "b", none, []⟩)]
          [("QA", ["QB"]), ("QB", ["QA"])] "x-00" (n + 1) ["QB", "QA"] =
          narrowDown
            [("QA", ⟨"QA", "a", none, []⟩), ("QB", ⟨"QB", "b", none, []⟩)]
            [("QA", ["QB"]), ("QB", ["QA"])] "x-00" n ["QA", "QB"] := rfl
      rw [hstep]
      exact ih.1

/-- C4 counterexample: two candidates listing each other as parents make
`narrow_down_qnode` recurse forever — `get_most_general_qnode` diverges at
every fuel, refuting termination on cyclic parent tables. -/
theorem claim4_counterexample :
    ¬ ∀ (qdicts : List QnodeEntry) (orig : List OrigEntry) (pb : String),
        ∃ fuel, getMostGeneralQnode fuel pb qdicts orig ≠ .div := by
  intro h
  obtain ⟨fuel, hf⟩ := h
    [⟨"QA", "a", none, []⟩, ⟨"QB", "b", none, []⟩]
    [⟨"QA", ["QB"]⟩, ⟨"QB", ["QA"]⟩] "x-00"
  apply hf
  have hred : getMostGeneralQnode fuel "x-00"
      [⟨"QA", "a", none, []⟩, ⟨"QB", "b", none, []⟩]
      [⟨"QA", ["QB"]⟩, ⟨"QB", ["QA"]⟩] =
      (match narrowDown
          [("QA", ⟨"QA", "a", none, []⟩), ("QB", ⟨"QB", "b", none, []⟩)]
          [("QA", ["QB"]), ("QB", ["QA"])] "x-00" fuel ["QA", "QB"] with
        | .exn => .exn
        | .div => .div
        | .ok mg =>
          if pyTruthy mg then
            .ok (alookup
              [("QA", ⟨"QA", "a", none, []⟩), ("QB", ⟨"QB", "b", none, []⟩)]
              (mg.getD ""))
          else .ok none) := rfl
  rw [hred, (narrowDown_cyc_div fuel).1]

theorem mem_keys_upsert {β : Type} (m : List (String × β)) (k : String)
    (v : β) (k' : String) :
    k' ∈ (upsert m k v).map (·.1) ↔ k' = k ∨ k' ∈ m.map (·.1) := by
  rw [← alookup_isSome, alookup_upsert, ← alookup_isSome]
  by_cases h : k' = k <;> simp [h]

theorem buildDict_keys_aux {β : Type} (l : List (String × β)) :
    ∀ (acc : List (String × β)) (k : String),
      k ∈ ((l.foldl (fun a p => upsert a p.1 p.2) acc).map (·.1)) →
      k ∈ acc.map (·.1) ∨ k ∈ l.map (·.1) := by
  induction l with
  | nil => intro acc k h; exact Or.inl h
  | cons p rest ih =>
    intro acc k h
    rcases ih (upsert acc p.1 p.2) k h with h1 | h1
    · rcases (mem_keys_upsert acc p.1 p.2 k).mp h1 with h2 | h2
      · exact Or.inr (by simp [h2])
      · exact Or.inl h2
    · exact Or.inr (by simp [h1])

theorem buildDict_keys_subset {β : Type} (l : List (String × β)) (k : String)
    (h : k ∈ (buildDict l).map (·.1)) : k ∈ l.map (·.1) := by
  rcases buildDict_keys_aux l [] k h with h1 | h1
  · simp at h1
  · exact h1

theorem ndScan_ne_div_aux (recur : List String → PRes (Option String))
    (I : List (String × QnodeEntry)) (O : List (String × List String))
    (pb : String) (rank : String → Nat) (n : Nat)
    (hacy : ∀ q ∈ I.map (·.1), ∀ p ∈ (alookup O q).getD [],
      p ∈ I.map (·.1) → rank p < rank q)
    (hrec : ∀ L, L ≠ [] → (∀ q ∈ L, q ∈ I.map (·.1) ∧ rank q < n) →
      recur L ≠ .div) :
    ∀ lst keep, (∀ q ∈ lst, q ∈ I.map (·.1) ∧ rank q ≤ n) →
      (∀ p ∈ keep, p ∈ I.map (·.1) ∧ rank p < n) →
      ndScan recur I O pb lst keep ≠ .div := by
  intro lst
  induction lst with
  | nil =>
    intro keep _ hkeep
    match keep with
    | [] => simp [ndScan]
    | [k] => simp [ndScan]
    | k1 :: k2 :: ks =>
      have : ndScan recur I O pb [] (k1 :: k2 :: ks) = recur (k1 :: k2 :: ks) :=
        rfl
      rw [this]
      exact hrec _ (by simp) hkeep
  | cons q rest ih =>
    intro keep hall hkeep
    cases hI : alookup I q with
    | none => simp [ndScan, hI]
    | some d =>
      by_cases hname : d.name = pb
      · simp [ndScan, hI, hname]
      · cases hO : alookup O q with
        | none => simp [ndScan, hI, hO, hname]
        | some ps =>
          have hstep : ndScan recur I O pb (q :: rest) keep =
              ndScan recur I O pb rest
                (keep ++ ps.filter (fun p => (alookup I p).isSome)) := by
            simp [ndScan, hI, hO, hname]
          rw [hstep]
          refine ih _ (fun x hx => hall x (by simp [hx])) ?_
          intro p hp
          rcases List.mem_append.mp hp with h1 | h1
          · exact hkeep p h1
          · have hps := List.mem_of_mem_filter h1
            have hpkey : p ∈ I.map (·.1) :=
              (alookup_isSome I p).mp (by simpa using List.of_mem_filter h1)
            refine ⟨hpkey, ?_⟩
            have hq := hall q (by simp)
            have := hacy q hq.1 p (by simp [hO, hps]) hpkey
            omega

theorem narrowDown_ne_div_of_rank (I : List (String × QnodeEntry))
    (O : List (String × List String)) (pb : String) (rank : String → Nat)
    (hacy : ∀ q ∈ I.map (·.1), ∀ p ∈ (alookup O q).getD [],
      p ∈ I.map (·.1) → rank p < rank q) :
    ∀ fuel L, (∀ q ∈ L, q ∈ I.map (·.1) ∧ rank q ≤ fuel) →
      narrowDown I O pb (fuel + 1) L ≠ .div := by
  intro fuel
  induction fuel with
  | zero =>
    intro L hL
    have hbody : narrowDown I O pb 1 L = ndScan (narrowDown I O pb 0) I O pb L []
      := rfl
    rw [hbody]
    refine ndScan_ne_div_aux _ I O pb rank 0 hacy ?_ L [] hL (by simp)
    intro L' hne hall
    match L', hne with
    | q :: _, _ =>
      have := (hall q (by simp)).2
      omega
  | succ n ih =>
    intro L hL
    have hbody : narrowDown I O pb (n + 2) L =
        ndScan (narrowDown I O pb (n + 1)) I O pb L [] := rfl
    rw [hbody]
    refine ndScan_ne_div_aux _ I O pb rank (n + 1) hacy ?_ L [] hL (by simp)
    intro L' _ hall
    exact ih L' (fun q hq => ⟨(hall q hq).1, by have := (hall q hq).2; omega⟩)

/-- C4 as amended: the generality tie-break terminates on every candidate
list and parent table whose parent links restricted to the candidate set
are acyclic (witnessed by a rank function that descends along parent
links); with cyclic parent links, `narrow_down_qnode` can recurse forever
(see the counterexample). -/
theorem claim4_theorem (pb : String) (qdicts : List QnodeEntry)
    (orig : List OrigEntry) (rank : String → Nat) (B : Nat)
    (hB : ∀ d ∈ qdicts, rank d.qnode ≤ B)
    (hacy : ∀ q ∈ (buildDict (qdicts.map (fun d => (d.qnode, d)))).map (·.1),
      ∀ p ∈ (alookup (mgOptionsMap
          ((buildDict (qdicts.map (fun d => (d.qnode, d)))).map (·.1)) orig)
          q).getD [],
        p ∈ (buildDict (qdicts.map (fun d => (d.qnode, d)))).map (·.1) →
        rank p < rank q) :
    getMostGeneralQnode (B + 1) pb qdicts orig ≠ .div := by
  intro hdiv
  have hids : ∀ q ∈ (buildDict (qdicts.map (fun d => (d.qnode, d)))).map (·.1),
      q ∈ (buildDict (qdicts.map (fun d => (d.qnode, d)))).map (·.1) ∧
      rank q ≤ B := by
    intro q hq
    refine ⟨hq, ?_⟩
    have := buildDict_keys_subset _ q hq
    obtain ⟨d, hd, hdq⟩ := List.mem_map.mp (by simpa using this)
    exact hdq ▸ hB d hd
  have hnd := narrowDown_ne_div_of_rank
    (buildDict (qdicts.map (fun d => (d.qnode, d))))
    (mgOptionsMap ((buildDict (qdicts.map (fun d => (d.qnode, d)))).map (·.1))
      orig) pb rank hacy B
    ((buildDict (qdicts.map (fun d => (d.qnode, d)))).map (·.1)) hids
  cases hn : narrowDown (buildDict (qdicts.map (fun d => (d.qnode, d))))
      (mgOptionsMap ((buildDict (qdicts.map (fun d => (d.qnode, d)))).map (·.1))
        orig) pb (B + 1)
      ((buildDict (qdicts.map (fun d => (d.qnode, d)))).map (·.1)) with
  | div => exact hnd hn
  | exn =>
    simp only [getMostGeneralQnode, hn] at hdiv
    exact PRes.noConfusion hdiv
  | ok mg =>
    simp only [getMostGeneralQnode, hn] at hdiv
    by_cases ht : pyTruthy mg = true <;> simp [ht] at hdiv

/-- Witness for C4's amended statement on a concrete acyclic parent
table. -/
theorem claim4_witness :
    getMostGeneralQnode 2 "z-09"
      [⟨"Q1", "a", none, []⟩, ⟨"Q2", "b", none, []⟩]
      [⟨"Q1", ["Q2"]⟩, ⟨"Q2", []⟩] ≠ .div :=
  claim4_theorem "z-09" _ _ (fun q => if q = "Q1" then 1 else 0) 1
    (by intro d hd; fin_cases hd <;> decide)
    (by decide)

/-! ## Claim C7 -/

theorem goParents_mono (g : AMRGraph) (fn : List String)
    (recur : String → List String → PRes (Option String) × List String)
    (hm : ∀ node c, c ⊆ (recur node c).2) :
    ∀ (l c : List String), c ⊆ (goParents recur g fn l c).2 := by
  intro l
  induction l with
  | nil => intro c; exact fun x hx => hx
  | cons p rest ih =>
    intro c
    by_cases hpc : p ∈ c
    · simpa [goParents, hpc] using ih c
    · cases hlab : g.labelOf p with
      | none => simp [goParents, hpc, hlab]
      | some lab =>
        by_cases hdes : isDesiredFramenetNode fn lab = true
        · intro x hx
          simp [goParents, hpc, hlab, hdes, hx]
        · rcases hr : recur p (p :: c) with ⟨res, c2⟩
          have hsub : c ⊆ c2 := by
            intro x hx
            have hmem : x ∈ p :: c := by simp [hx]
            have := hm p (p :: c) hmem
            rwa [hr] at this
          have hgo : (goParents recur g fn (p :: rest) c).2 =
              (match (res, c2) with
                | (.ok none, c2) => goParents recur g fn rest c2
                | r => r).2 := by
            simp [goParents, hpc, hlab, hdes, hr]
          rcases res with o | _ | _
          · rcases o with _ | xv
            · rw [hgo]
              exact fun x hx => ih c2 (hsub hx)
            · rw [hgo]
              exact hsub
          · rw [hgo]
            exact hsub
          · rw [hgo]
            exact hsub

theorem getClaimNodeFromToken_mono (g : AMRGraph) (fn : List String) :
    ∀ (fuel : Nat) (node : String) (c : List String),
      c ⊆ (getClaimNodeFromToken g fn fuel node c).2 := by
  intro fuel
  induction fuel with
  | zero => intro node c; exact fun x hx => hx
  | succ n ih =>
    intro node c
    exact goParents_mono g fn _ (fun nd cc => ih nd cc) (g.parentsForNode node) c

theorem filter_length_mono {α : Type} (l : List α) (p q : α → Bool)
    (h : ∀ x ∈ l, p x = true → q x = true) :
    (l.filter p).length ≤ (l.filter q).length := by
  induction l with
  | nil => simp
  | cons x rest ih =>
    have ih' := ih (fun y hy => h y (by simp [hy]))
    cases hp : p x
    · cases hq : q x
      · simpa [List.filter_cons, hp, hq] using ih'
      · simp only [List.filter_cons, hp, hq]
        simp only [if_false, if_true, cond_true, cond_false]
        calc (List.filter p rest).length ≤ (List.filter q rest).length := ih'
          _ ≤ (x :: List.filter q rest).length := by simp
    · have hq := h x (by simp) hp
      simp only [List.filter_cons, hp, hq]
      simpa using ih'

theorem filter_notmem_cons_lt (l : List String) (p : String) (hp : p ∈ l)
    (c : List String) (hpc : p ∉ c) :
    (l.filter (fun x => x ∉ (p :: c))).length <
      (l.filter (fun x => x ∉ c)).length := by
  induction l with
  | nil => simp at hp
  | cons x rest ih =>
    by_cases hxp : x = p
    · subst hxp
      rw [List.filter_cons_of_neg (by simp),
        List.filter_cons_of_pos (by simpa using hpc)]
      have hmono : (rest.filter (fun y => y ∉ (x :: c))).length ≤
          (rest.filter (fun y => y ∉ c)).length := by
        refine filter_length_mono rest _ _ ?_
        intro y _ hy
        simp only [decide_eq_true_eq] at hy ⊢
        exact fun hc => hy (by simp [hc])
      simpa using Nat.lt_succ_of_le hmono
    · have hrest : p ∈ rest := by
        rcases List.mem_cons.mp hp with h1 | h1
        · exact absurd h1.symm hxp
        · exact h1
      by_cases hxc : x ∈ c
      · rw [List.filter_cons_of_neg (by simp [hxc]),
          List.filter_cons_of_neg (by simp [hxc])]
        exact ih hrest
      · rw [List.filter_cons_of_pos (by simp [hxp, hxc]),
          List.filter_cons_of_pos (by simp [hxc])]
        simpa using ih hrest

theorem goParents_ne_div_aux (g : AMRGraph) (fn : List String)
    (recur : String → List String → PRes (Option String) × List String)
    (n : Nat) (hmono : ∀ node c, c ⊆ (recur node c).2)
    (hrec : ∀ node c,
      (g.nodeIds.dedup.filter (fun x => x ∉ c)).length < n →
      (recur node c).1 ≠ .div) :
    ∀ (l c : List String), (∀ p ∈ l, p ∈ g.nodeIds) →
      (g.nodeIds.dedup.filter (fun x => x ∉ c)).length ≤ n →
      (goParents recur g fn l c).1 ≠ .div := by
  intro l
  induction l with
  | nil =>
    intro c _ _
    simp [goParents]
  | cons p rest ih =>
    intro c hall hm
    by_cases hpc : p ∈ c
    · simp only [goParents, if_pos hpc]
      exact ih c (fun x hx => hall x (by simp [hx])) hm
    · cases hlab : g.labelOf p with
      | none => simp [goParents, hpc, hlab]
      | some lab =>
        by_cases hdes : isDesiredFramenetNode fn lab = true
        · simp [goParents, hpc, hlab, hdes]
        · have hpk : p ∈ g.nodeIds.dedup :=
            List.mem_dedup.mpr (hall p (by simp))
          have hlt : (g.nodeIds.dedup.filter
              (fun x => x ∉ (p :: c))).length < n :=
            Nat.lt_of_lt_of_le (filter_notmem_cons_lt _ p hpk c hpc) hm
          rcases hr : recur p (p :: c) with ⟨res, c2⟩
          have hres : res ≠ .div := by
            have := hrec p (p :: c) hlt
            rwa [hr] at this
          have hgo : goParents recur g fn (p :: rest) c =
              (match (res, c2) with
                | (.ok none, c2) => goParents recur g fn rest c2
                | r => r) := by
            simp [goParents, hpc, hlab, hdes, hr]
          rcases res with o | _ | _
          · rcases o with _ | xv
            · rw [hgo]
              have hsub : (p :: c) ⊆ c2 := by
                intro x hx
                have := hmono p (p :: c) hx
                rwa [hr] at this
              refine ih c2 (fun x hx => hall x (by simp [hx])) ?_
              have : (g.nodeIds.dedup.filter (fun x => x ∉ c2)).length ≤
                  (g.nodeIds.dedup.filter (fun x => x ∉ (p :: c))).length := by
                refine filter_length_mono _ _ _ ?_
                intro y _ hy
                simp only [decide_eq_true_eq] at hy ⊢
                exact fun hcc => hy (hsub hcc)
              omega
            · rw [hgo]
              simp
          · rw [hgo]
            simp
          · exact absurd rfl hres

theorem getClaimNodeFromToken_ne_div (g : AMRGraph) (fn : List String)
    (hinv : ∀ e ∈ g.edges, e.1 ∈ g.nodeIds) :
    ∀ (fuel : Nat) (node : String) (c : List String),
      (g.nodeIds.dedup.filter (fun x => x ∉ c)).length < fuel →
      (getClaimNodeFromToken g fn fuel node c).1 ≠ .div := by
  intro fuel
  induction fuel with
  | zero =>
    intro node c h
    omega
  | succ n ih =>
    intro node c h
    have hpar : ∀ p ∈ g.parentsForNode node, p ∈ g.nodeIds := by
      intro p hp
      obtain ⟨e, he, hpe⟩ := List.mem_filterMap.mp hp
      by_cases hc : e.2.2 == node
      · simp only [hc, if_true, Option.some_inj] at hpe
        exact hpe ▸ hinv e he
      · simp [hc] at hpe
    exact goParents_ne_div_aux g fn _ n
      (fun nd cc => getClaimNodeFromToken_mono g fn n nd cc)
      (fun nd cc hcc => ih nd cc hcc)
      (g.parentsForNode node) c hpar (by omega)

/-- C7: on every finite AMR graph whose edges only mention existing nodes
— cyclic or not — the Claimer Locator's upward search
`get_claim_node_from_token` terminates, the number of recursive descents
being bounded by the total number of graph nodes (fuel `|nodes| + 1`
never runs out when starting from the empty visited set). -/
theorem claim7_theorem (g : AMRGraph) (fn : List String) (node : String)
    (hinv : ∀ e ∈ g.edges, e.1 ∈ g.nodeIds) :
    (getClaimNodeFromToken g fn (g.nodes.length + 1) node []).1 ≠ .div := by
  refine getClaimNodeFromToken_ne_div g fn hinv _ node [] ?_
  have h1 : (g.nodeIds.dedup.filter
      (fun x => x ∉ ([] : List String))).length = g.nodeIds.dedup.length := by
    have : ∀ x ∈ g.nodeIds.dedup, (decide (x ∉ ([] : List String))) = true := by
      intro x _
      simp
    rw [List.filter_eq_self.mpr this]
  have h2 : g.nodeIds.dedup.length ≤ g.nodeIds.length :=
    List.Sublist.length_le (List.dedup_sublist _)
  have h3 : g.nodeIds.length = g.nodes.length := by
    simp [AMRGraph.nodeIds]
  omega

/-- Witness for C7 on a concrete cyclic two-node graph. -/
theorem claim7_witness :
    (getClaimNodeFromToken
      ⟨[("a", "say-01"), ("b", "x")],
        [("a", ":ARG0", "b"), ("b", ":mod", "a")], "a", []⟩
      ["say"] 3 "b" []).1 ≠ .div :=
  claim7_theorem
    ⟨[("a", "say-01"), ("b", "x")], [("a", ":ARG0", "b"), ("b", ":mod", "a")],
      "a", []⟩
    ["say"] "b" (by decide)

/-! ## Claim C8 -/

theorem diceScore_nonneg (a b : String) : 0 ≤ diceScore a b := by
  rw [diceScore]
  apply div_nonneg
  · positivity
  · positivity

theorem bestNameScan_snd (sc : String → ℚ) :
    ∀ (l : List String) (bn : String) (bs : ℚ),
      (bestNameScan sc l (bn, bs)).2 =
        l.foldl (fun a n => max a (sc n)) bs := by
  intro l
  induction l with
  | nil => intro bn bs; rfl
  | cons n rest ih =>
    intro bn bs
    by_cases h : sc n > bs
    · rw [bestNameScan, if_pos h, ih, List.foldl_cons,
        max_eq_right (le_of_lt h)]
    · rw [bestNameScan, if_neg h, ih, List.foldl_cons,
        max_eq_left (not_lt.mp h)]

theorem bestNameScan_stay (sc : String → ℚ) :
    ∀ (l : List String) (bn : String) (bs : ℚ),
      (∀ n ∈ l, sc n ≤ bs) → bestNameScan sc l (bn, bs) = (bn, bs) := by
  intro l
  induction l with
  | nil => intro bn bs _; rfl
  | cons n rest ih =>
    intro bn bs h
    rw [bestNameScan, if_neg (not_lt.mpr (h n (by simp)))]
    exact ih bn bs (fun m hm => h m (by simp [hm]))

theorem foldlMax_seed_le (sc : String → ℚ) :
    ∀ (l : List String) (b : ℚ), b ≤ l.foldl (fun a n => max a (sc n)) b := by
  intro l
  induction l with
  | nil => intro b; simp
  | cons n rest ih =>
    intro b
    calc b ≤ max b (sc n) := le_max_left _ _
      _ ≤ _ := ih (max b (sc n))

theorem foldlMax_elem_le (sc : String → ℚ) :
    ∀ (l : List String) (b : ℚ) (m : String), m ∈ l →
      sc m ≤ l.foldl (fun a n => max a (sc n)) b := by
  intro l
  induction l with
  | nil => intro b m hm; simp at hm
  | cons n rest ih =>
    intro b m hm
    rcases List.mem_cons.mp hm with h | h
    · subst h
      calc sc m ≤ max b (sc m) := le_max_right _ _
        _ ≤ _ := foldlMax_seed_le sc rest _
    · exact ih _ m h

theorem foldlMax_eq_seed (sc : String → ℚ) :
    ∀ (l : List String) (b : ℚ), (∀ n ∈ l, sc n ≤ b) →
      l.foldl (fun a n => max a (sc n)) b = b := by
  intro l
  induction l with
  | nil => intro b _; rfl
  | cons n rest ih =>
    intro b h
    rw [List.foldl_cons, max_eq_left (h n (by simp))]
    exact ih b (fun m hm => h m (by simp [hm]))

theorem bestNameScan_first_max (sc : String → ℚ) :
    ∀ (l : List String) (bn : String) (bs : ℚ),
      (∃ n ∈ l, bs < sc n) →
      ∃ l1 n l2, l = l1 ++ n :: l2 ∧
        bestNameScan sc l (bn, bs) = (n, sc n) ∧
        sc n = l.foldl (fun a m => max a (sc m)) bs ∧
        (∀ m ∈ l1, sc m < sc n) := by
  intro l
  induction l with
  | nil =>
    intro bn bs h
    simp at h
  | cons n rest ih =>
    intro bn bs hex
    by_cases h : bs < sc n
    · by_cases hall : ∀ m ∈ rest, sc m ≤ sc n
      · refine ⟨[], n, rest, by simp, ?_, ?_, by simp⟩
        · rw [bestNameScan, if_pos h]
          exact bestNameScan_stay sc rest n (sc n) hall
        · rw [List.foldl_cons, max_eq_right (le_of_lt h)]
          exact (foldlMax_eq_seed sc rest (sc n) hall).symm
      · push_neg at hall
        obtain ⟨m0, hm0, hm0lt⟩ := hall
        obtain ⟨l1, n', l2, hsplit, hscan, hmax, hpred⟩ :=
          ih n (sc n) ⟨m0, hm0, hm0lt⟩
        refine ⟨n :: l1, n', l2, by simp [hsplit], ?_, ?_, ?_⟩
        · rw [bestNameScan, if_pos h]
          exact hscan
        · rw [List.foldl_cons, max_eq_right (le_of_lt h)]
          exact hmax
        · intro m hm
          rcases List.mem_cons.mp hm with h1 | h1
          · subst h1
            calc sc m < sc m0 := hm0lt
              _ ≤ rest.foldl (fun a x => max a (sc x)) (sc m) :=
                foldlMax_elem_le sc rest _ m0 hm0
              _ = sc n' := hmax.symm
          · exact hpred m h1
    · obtain ⟨m0, hm0, hm0lt⟩ := hex
      have hm0rest : m0 ∈ rest := by
        rcases List.mem_cons.mp hm0 with h1 | h1
        · subst h1
          exact absurd hm0lt h
        · exact h1
      obtain ⟨l1, n', l2, hsplit, hscan, hmax, hpred⟩ :=
        ih bn bs ⟨m0, hm0rest, hm0lt⟩
      refine ⟨n :: l1, n', l2, by simp [hsplit], ?_, ?_, ?_⟩
      · rw [bestNameScan, if_neg h]
        exact hscan
      · rw [List.foldl_cons, max_eq_left (not_lt.mp h)]
        exact hmax
      · intro m hm
        rcases List.mem_cons.mp hm with h1 | h1
        · subst h1
          calc sc m ≤ bs := not_lt.mp h
            _ < sc m0 := hm0lt
            _ ≤ rest.foldl (fun a x => max a (sc x)) bs :=
              foldlMax_elem_le sc rest _ m0 hm0rest
            _ = sc n' := hmax.symm
        · exact hpred m h1

/-- C8: for a nonempty candidate list with pairwise-distinct names of
length at least two, `get_best_qnode_by_string_similarity` returns the
candidate maximizing the Dice coefficient over character bigrams of the
PropBank verb stem and the candidate name; among equal maximal scores the
first-enumerated candidate wins, and when every score is zero the first
candidate is still returned. -/
theorem claim8_theorem (pb : String) (qdicts : List QnodeEntry)
    (hne : qdicts ≠ []) (hnodup : (qdicts.map (·.name)).Nodup)
    (_hlen : ∀ d ∈ qdicts, 2 ≤ d.name.length) :
    ∃ l1 d l2, qdicts = l1 ++ d :: l2 ∧
      getBestQnodeByStringSimilarity pb qdicts = some d ∧
      (∀ e ∈ qdicts, diceScore (rsplitBeforeLast '-' pb) e.name ≤
        diceScore (rsplitBeforeLast '-' pb) d.name) ∧
      (∀ e ∈ l1, diceScore (rsplitBeforeLast '-' pb) e.name <
        diceScore (rsplitBeforeLast '-' pb) d.name) := by
  rcases qdicts with _ | ⟨d0, ds⟩
  · exact absurd rfl hne
  · have hkeys : (((d0 :: ds).map (fun d => (d.name, d))).map (·.1)) =
        (d0 :: ds).map (·.name) := by
      simp
    have hbd : buildDict ((d0 :: ds).map (fun d => (d.name, d))) =
        (d0 :: ds).map (fun d => (d.name, d)) :=
      buildDict_eq_of_nodup _ (by rw [hkeys]; exact hnodup)
    have hunf : getBestQnodeByStringSimilarity pb (d0 :: ds) =
        alookup ((d0 :: ds).map (fun d => (d.name, d)))
          (bestNameScan (fun qn => diceScore (rsplitBeforeLast '-' pb) qn)
            ((d0 :: ds).map (·.name)) (d0.name, 0)).1 := by
      simp only [getBestQnodeByStringSimilarity, hbd, hkeys]
      simp
    by_cases hall : ∀ n ∈ (d0 :: ds).map (·.name),
        diceScore (rsplitBeforeLast '-' pb) n ≤ 0
    · have hstay := bestNameScan_stay
        (fun qn => diceScore (rsplitBeforeLast '-' pb) qn)
        ((d0 :: ds).map (·.name)) d0.name 0 hall
      refine ⟨[], d0, ds, by simp, ?_, ?_, by simp⟩
      · rw [hunf, hstay]
        exact alookup_of_nodup_mem _ (by rw [hkeys]; exact hnodup)
          (List.mem_map.mpr ⟨d0, by simp, rfl⟩)
      · intro e he
        calc diceScore (rsplitBeforeLast '-' pb) e.name ≤ 0 :=
            hall e.name (List.mem_map.mpr ⟨e, he, rfl⟩)
          _ ≤ diceScore (rsplitBeforeLast '-' pb) d0.name :=
            diceScore_nonneg _ _
    · push_neg at hall
      obtain ⟨n0, hn0, hn0pos⟩ := hall
      obtain ⟨l1, n, l2, hsplit, hscan, hmax, hpred⟩ :=
        bestNameScan_first_max
          (fun qn => diceScore (rsplitBeforeLast '-' pb) qn)
          ((d0 :: ds).map (·.name)) d0.name 0 ⟨n0, hn0, hn0pos⟩
      obtain ⟨q1, q2, hq, hq1, hq2⟩ := List.map_eq_append_iff.mp hsplit
      rcases q2 with _ | ⟨d, q2'⟩
      · simp at hq2
      · simp only [List.map_cons, List.cons.injEq] at hq2
        refine ⟨q1, d, q2', by rw [hq], ?_, ?_, ?_⟩
        · rw [hunf, hscan]
          simp only []
          rw [← hq2.1]
          exact alookup_of_nodup_mem _ (by rw [hkeys]; exact hnodup)
            (List.mem_map.mpr ⟨d, by rw [hq]; simp, rfl⟩)
        · intro e he
          rw [hq2.1]
          calc diceScore (rsplitBeforeLast '-' pb) e.name ≤
              ((d0 :: ds).map (·.name)).foldl
                (fun a m => max a (diceScore (rsplitBeforeLast '-' pb) m)) 0 :=
              foldlMax_elem_le _ _ 0 e.name (List.mem_map.mpr ⟨e, he, rfl⟩)
            _ = diceScore (rsplitBeforeLast '-' pb) n := hmax.symm
        · intro e he
          rw [hq2.1]
          exact hpred e.name (by rw [← hq1]; exact List.mem_map.mpr ⟨e, he, rfl⟩)

/-- Witness for C8 at concrete candidates: `"treat"` beats `"cure"` and
`"heal"` for the label `"treat-03"`. -/
theorem claim8_witness :
    ∃ l1 d l2,
      ([⟨"Q1", "cure", none, []⟩, ⟨"Q2", "treat", none, []⟩,
        ⟨"Q3", "heal", none, []⟩] : List QnodeEntry) = l1 ++ d :: l2 ∧
      getBestQnodeByStringSimilarity "treat-03"
        [⟨"Q1", "cure", none, []⟩, ⟨"Q2", "treat", none, []⟩,
          ⟨"Q3", "heal", none, []⟩] = some d ∧
      (∀ e ∈ ([⟨"Q1", "cure", none, []⟩, ⟨"Q2", "treat", none, []⟩,
          ⟨"Q3", "heal", none, []⟩] : List QnodeEntry),
        diceScore (rsplitBeforeLast '-' "treat-03") e.name ≤
          diceScore (rsplitBeforeLast '-' "treat-03") d.name) ∧
      (∀ e ∈ l1, diceScore (rsplitBeforeLast '-' "treat-03") e.name <
        diceScore (rsplitBeforeLast '-' "treat-03") d.name) :=
  claim8_theorem "treat-03"
    [⟨"Q1", "cure", none, []⟩, ⟨"Q2", "treat", none, []⟩,
      ⟨"Q3", "heal", none, []⟩]
    (by decide) (by decide) (by intro d hd; fin_cases hd <;> decide)
